import Mathlib

/-!
Shallow embedding of the contract cache core
(`src/lib/cache/contract-cache.ts`): JSON-like argument values and their
serialization, validation, key derivation, the bounded LRU store, the
read-through cache engine, pattern invalidation and metrics.
-/

namespace ContractCache

/-- JSON-like values: the model of `unknown` argument and result values
that are JSON-serializable.  Numbers are modelled as integers (the
repository only ever passes strings and plain scalars as arguments). -/
inductive JValue where
  | null : JValue
  | boolean : Bool → JValue
  | num : Int → JValue
  | str : String → JValue
  | arr : List JValue → JValue
  | obj : List (String × JValue) → JValue
deriving Repr

/-- A plain JS object (`Record<string, unknown>`): an association list of
top-level keys to values, in insertion order. -/
abbrev JObj := List (String × JValue)

/-- Lower-case hexadecimal digit, as produced by `JSON.stringify` for
control-character escapes. -/
def hexDigitChar (n : Nat) : Char :=
  if n < 10 then Char.ofNat (48 + n) else Char.ofNat (87 + n)

/-- Decimal digit character. -/
def digitChar (n : Nat) : Char := Char.ofNat (48 + n)

/-- Fuel-indexed decimal digit expansion of a natural number. -/
def natDigitsF : Nat → Nat → List Char
  | 0, _ => []
  | f + 1, n => if n < 10 then [digitChar n] else natDigitsF f (n / 10) ++ [digitChar (n % 10)]

/-- Decimal digit expansion of a natural number (`String(n)` in JS). -/
def natDigits (n : Nat) : List Char := natDigitsF (n + 1) n

/-- Decimal rendering of an integer (`String(i)` in JS). -/
def intDigits : Int → List Char
  | .ofNat n => natDigits n
  | .negSucc m => '-' :: natDigits (m + 1)

/-- `JSON.stringify` escape of a single character inside a string literal. -/
def escChar (c : Char) : List Char :=
  if c = '"' then ['\\', '"']
  else if c = '\\' then ['\\', '\\']
  else if c = '\n' then ['\\', 'n']
  else if c = '\r' then ['\\', 'r']
  else if c = '\t' then ['\\', 't']
  else if c.toNat = 8 then ['\\', 'b']
  else if c.toNat = 12 then ['\\', 'f']
  else if c.toNat < 32 then
    ['\\', 'u', '0', '0', hexDigitChar (c.toNat / 16), hexDigitChar (c.toNat % 16)]
  else [c]

/-- `JSON.stringify` of a string: a quoted, escaped literal. -/
def serStr (s : String) : List Char :=
  '"' :: s.data.flatMap escChar ++ ['"']

mutual

/-- `JSON.stringify` of a value, as a character list. -/
def ser : JValue → List Char
  | .null => ['n', 'u', 'l', 'l']
  | .boolean true => ['t', 'r', 'u', 'e']
  | .boolean false => ['f', 'a', 'l', 's', 'e']
  | .num i => intDigits i
  | .str s => serStr s
  | .arr xs => '[' :: serArr xs ++ [']']
  | .obj fs => '{' :: serObj fs ++ ['}']

/-- Comma-separated serialization of array elements. -/
def serArr : List JValue → List Char
  | [] => []
  | [x] => ser x
  | x :: y :: xs => ser x ++ ',' :: serArr (y :: xs)

/-- Comma-separated serialization of object fields. -/
def serObj : List (String × JValue) → List Char
  | [] => []
  | [(k, v)] => serStr k ++ ':' :: ser v
  | (k, v) :: p :: fs => serStr k ++ ':' :: ser v ++ ',' :: serObj (p :: fs)

end

/-- `JSON.stringify` of a value, as a string. -/
def jsonStringify (v : JValue) : String := ⟨ser v⟩

/-- A JS `number` as far as the cache is concerned: either non-finite
(`NaN`, `±Infinity`) or a finite value.  Finite values are modelled as
integers: every TTL and timestamp the repository uses is integral, and no
floating-point rounding is exercised by the checks below. -/
inductive JSNum where
  | nan : JSNum
  | posInf : JSNum
  | negInf : JSNum
  | finite : Int → JSNum
deriving DecidableEq, Repr

/-- The finite value of a validated JS number (validation guarantees the
argument is `finite`). -/
def JSNum.toInt : JSNum → Int
  | .finite q => q
  | _ => 0

/-- Error codes of `CacheErrorCode` in the source. -/
inductive CacheErrorCode where
  | INVALID_INPUT
  | SERIALIZATION_ERROR
  | CACHE_FULL
  | FETCH_ERROR
  | INVALID_TTL
  | INVALID_CONTRACT_ID
deriving DecidableEq, Repr

/-- A `CacheError`: machine-readable code plus human-readable message. -/
structure CacheError where
  code : CacheErrorCode
  message : String
deriving DecidableEq, Repr

/-- `CACHE_MAX_SIZE` in the source. -/
def CACHE_MAX_SIZE : Nat := 500

/-- `MAX_KEY_LENGTH` in the source. -/
def MAX_KEY_LENGTH : Nat := 1024

/-- `MAX_ARGS_SIZE` in the source. -/
def MAX_ARGS_SIZE : Nat := 10240

/-- `MIN_TTL` in the source. -/
def MIN_TTL : Int := 1

/-- `MAX_TTL` in the source. -/
def MAX_TTL : Int := 3600

/-- The whitelist `VALID_CONTRACT_IDS` (values of `CONTRACT_IDS`). -/
def VALID_CONTRACT_IDS : List String :=
  ["REMITTANCE_SPLIT_CONTRACT", "SAVINGS_GOALS_CONTRACT",
   "BILL_PAYMENTS_CONTRACT", "INSURANCE_CONTRACT"]

/-- `validateContractId`: non-empty and on the whitelist. -/
def validateContractId (contractId : String) : Except CacheError Unit :=
  if contractId = "" then
    .error ⟨.INVALID_CONTRACT_ID, "Contract ID must be a non-empty string"⟩
  else if VALID_CONTRACT_IDS.contains contractId then
    .ok ()
  else
    .error ⟨.INVALID_CONTRACT_ID, "Invalid contract ID"⟩

/-- First character of a valid method name: `[a-zA-Z_]`. -/
def isMethodStart (c : Char) : Bool := c.isAlpha || c == '_'

/-- Later characters of a valid method name: `[a-zA-Z0-9_]`. -/
def isMethodChar (c : Char) : Bool := c.isAlphanum || c == '_'

/-- The regex test from `validateMethod`. -/
def validMethodName (m : String) : Bool :=
  match m.data with
  | [] => false
  | c :: cs => isMethodStart c && cs.all isMethodChar

/-- `validateMethod`: non-empty and matching the identifier regex. -/
def validateMethod (method : String) : Except CacheError Unit :=
  if method = "" then
    .error ⟨.INVALID_INPUT, "Method must be a non-empty string"⟩
  else if validMethodName method then
    .ok ()
  else
    .error ⟨.INVALID_INPUT, "Invalid method name"⟩

/-- `validateTTL`: a finite number within `[MIN_TTL, MAX_TTL]`. -/
def validateTTL (ttlSeconds : JSNum) : Except CacheError Unit :=
  match ttlSeconds with
  | .finite q =>
    if q < MIN_TTL ∨ q > MAX_TTL then
      .error ⟨.INVALID_TTL, "TTL must be between 1 and 3600 seconds"⟩
    else
      .ok ()
  | _ => .error ⟨.INVALID_TTL, "TTL must be a finite number"⟩

/-- `validateArgs`: the serialized args must not exceed `MAX_ARGS_SIZE`.
(The shape checks of the source — non-null, non-array plain object — hold
by construction of `JObj`, and a `JValue` is always serializable.) -/
def validateArgs (args : JObj) : Except CacheError Unit :=
  if (ser (.obj args)).length > MAX_ARGS_SIZE then
    .error ⟨.INVALID_INPUT, "Args size exceeds maximum of 10240 bytes"⟩
  else
    .ok ()

/-- Code-unit comparison of character lists (JS default string ordering). -/
def lexLe : List Char → List Char → Bool
  | [], _ => true
  | _ :: _, [] => false
  | a :: as, b :: bs => if a < b then true else if b < a then false else lexLe as bs

/-- JS default string comparison, as used by `Array.prototype.sort()`. -/
def strLe (a b : String) : Bool := lexLe a.data b.data

/-- Insert a string into an already sorted list. -/
def insertSorted (k : String) : List String → List String
  | [] => [k]
  | x :: xs => if strLe k x then k :: x :: xs else x :: insertSorted k xs

/-- Sort a list of strings (the observable effect of
`Object.keys(args).sort()` on the distinct top-level keys). -/
def sortStrings : List String → List String
  | [] => []
  | x :: xs => insertSorted x (sortStrings xs)

/-- Value of a top-level key of an object (`args[key]`; the default is
never reached, since the function is only applied to present keys). -/
def jlookup (k : String) (args : JObj) : JValue :=
  match args.lookup k with
  | some v => v
  | none => .null

/-- The `sortedArgs` object of `generateCacheKey`: the object rebuilt from
the lexicographically sorted top-level keys. -/
def sortObj (args : JObj) : JObj :=
  (sortStrings (args.map Prod.fst)).map (fun k => (k, jlookup k args))

/-- `generateCacheKey`: validate, canonicalize, concatenate, bound. -/
def generateCacheKey (contractId method : String) (args : JObj) :
    Except CacheError String := do
  validateContractId contractId
  validateMethod method
  validateArgs args
  let argsHash := jsonStringify (.obj (sortObj args))
  let key := contractId ++ ":" ++ method ++ ":" ++ argsHash
  if key.length > MAX_KEY_LENGTH then
    throw ⟨.INVALID_INPUT, "Cache key exceeds maximum length of 1024"⟩
  else
    return key

/-- A cache entry (`CacheEntry<T>` in the source). -/
structure CacheEntry where
  data : JValue
  timestamp : Int
  ttl : Int
  contractId : String
  method : String
deriving Repr

/-- Modelled from the spec: the Store of §4.3, a bounded LRU map
(the source delegates this to the `lru-cache` package, whose code is not
part of the repository).  Entries are kept most-recently-used first. -/
structure Store where
  entries : List (String × CacheEntry)

/-- The empty store. -/
def Store.empty : Store := ⟨[]⟩

/-- Number of entries (`size()` of the spec; `length`/`itemCount` of the
`lru-cache` instance, which uses the default per-item weight of 1). -/
def Store.size (s : Store) : Nat := s.entries.length

/-- `keys()`: the current keys, most-recently-used first. -/
def Store.keys (s : Store) : List String := s.entries.map Prod.fst

/-- `has(key)`. -/
def Store.has (s : Store) (k : String) : Bool := s.entries.any (fun p => p.1 == k)

/-- `delete(key)` (called `del` by the library). -/
def Store.del (s : Store) (k : String) : Store :=
  ⟨s.entries.filter (fun p => p.1 != k)⟩

/-- `get(key)`: returns the entry if present and advances its recency to
most-recently-used.  Returns the value together with the updated store. -/
def Store.get (s : Store) (k : String) : Option CacheEntry × Store :=
  match s.entries.find? (fun p => p.1 == k) with
  | none => (none, s)
  | some (_, e) => (some e, ⟨(k, e) :: s.entries.filter (fun p => p.1 != k)⟩)

/-- `set(key, entry)`: insert (or replace) as most-recently-used; when the
capacity `CACHE_MAX_SIZE` would be exceeded, evict the single
least-recently-used entry. -/
def Store.set (s : Store) (k : String) (e : CacheEntry) : Store :=
  let l := (k, e) :: s.entries.filter (fun p => p.1 != k)
  ⟨if l.length > CACHE_MAX_SIZE then l.dropLast else l⟩

/-- The module-level mutable state: the LRU store and the two metrics
counters `cacheHits` / `cacheMisses`. -/
structure CacheState where
  store : Store
  cacheHits : Nat
  cacheMisses : Nat

/-- The behaviour of the caller-supplied `fetchFn` on one invocation:
resolve to a value (possibly JSON `null`), resolve to `undefined`, or
reject. -/
inductive FetchSpec where
  | value : JValue → FetchSpec
  | undef : FetchSpec
  | throws : FetchSpec
deriving Repr

/-- Is a fetched value the JS `null`? -/
def JValue.isNull : JValue → Bool
  | .null => true
  | _ => false

/-- Result of one `cachedContractCall`: success with data, a thrown
`CacheError`, or the caller's own fetch error propagated verbatim. -/
inductive CallResult where
  | success : JValue → CallResult
  | cacheFailure : CacheError → CallResult
  | fetchFailure : CallResult
deriving Repr

/-- Everything observable about one `cachedContractCall`: its result,
whether `fetchFn` was invoked, and the state afterwards. -/
structure CallOutcome where
  result : CallResult
  fetchInvoked : Bool
  state : CacheState

/-- `cachedContractCall`.  `lookupTime` is `Date.now()` at the cache
lookup and `storeTime` is `Date.now()` when the fresh entry is written
(the fetch may take time in between). -/
def cachedContractCall (contractId method : String) (args : JObj)
    (ttlSeconds : JSNum) (fetchFn : FetchSpec) (lookupTime storeTime : Int)
    (s : CacheState) : CallOutcome :=
  match (do
      validateContractId contractId
      validateMethod method
      validateArgs args
      validateTTL ttlSeconds : Except CacheError Unit) with
  | .error e => ⟨.cacheFailure e, false, s⟩
  | .ok _ =>
    match generateCacheKey contractId method args with
    | .error e => ⟨.cacheFailure e, false, s⟩
    | .ok cacheKey =>
      -- validateTTL succeeded, so ttlSeconds is finite
      let ttl := ttlSeconds.toInt
      let (cached, store1) := s.store.get cacheKey
      let hitData : Option JValue × Store :=
        match cached with
        | some entry =>
          let age := lookupTime - entry.timestamp
          if age < ttl * 1000 ∧ entry.ttl = ttl then
            (some entry.data, store1)
          else
            -- expired or TTL mismatch: remove from cache
            (none, store1.del cacheKey)
        | none => (none, store1)
      match hitData with
      | (some data, store2) =>
        ⟨.success data, false, ⟨store2, s.cacheHits + 1, s.cacheMisses⟩⟩
      | (none, store2) =>
        -- cache miss
        let misses := s.cacheMisses + 1
        match fetchFn with
        | .throws => ⟨.fetchFailure, true, ⟨store2, s.cacheHits, misses⟩⟩
        | .undef =>
          ⟨.cacheFailure ⟨.INVALID_INPUT, "fetchFn returned null or undefined - cannot cache"⟩,
           true, ⟨store2, s.cacheHits, misses⟩⟩
        | .value data =>
          if data.isNull then
            ⟨.cacheFailure ⟨.INVALID_INPUT, "fetchFn returned null or undefined - cannot cache"⟩,
             true, ⟨store2, s.cacheHits, misses⟩⟩
          else
            let entry : CacheEntry := ⟨data, storeTime, ttl, contractId, method⟩
            ⟨.success data, true, ⟨store2.set cacheKey entry, s.cacheHits, misses⟩⟩

/-- The characters the `invalidatePattern` whitelist regex accepts via
`\s` (JS whitespace). -/
def isJSWhitespace (c : Char) : Bool :=
  c == ' ' || c == '\t' || c == '\n' || c == '\r' ||
  c.toNat == 11 || c.toNat == 12 || c.toNat == 0xa0 || c.toNat == 0x1680 ||
  (0x2000 ≤ c.toNat && c.toNat ≤ 0x200a) || c.toNat == 0x2028 ||
  c.toNat == 0x2029 || c.toNat == 0x202f || c.toNat == 0x205f ||
  c.toNat == 0x3000 || c.toNat == 0xfeff

/-- One character of the `invalidatePattern` whitelist
`[a-zA-Z0-9_:{}",\s-]`. -/
def isPatternChar (c : Char) : Bool :=
  c.isAlphanum || c == '_' || c == ':' || c == '{' || c == '}' ||
  c == '"' || c == ',' || isJSWhitespace c || c == '-'

/-- Does a character list start with the given list? -/
def startsWithL : List Char → List Char → Bool
  | _, [] => true
  | [], _ :: _ => false
  | a :: as, b :: bs => a == b && startsWithL as bs

/-- `String.prototype.includes`: substring containment on the underlying
character lists. -/
def includesL (p : List Char) : List Char → Bool
  | [] => startsWithL [] p
  | c :: ls => startsWithL (c :: ls) p || includesL p ls

/-- `key.includes(pattern)`. -/
def strIncludes (s pat : String) : Bool := includesL pat.data s.data

/-- `invalidatePattern`: validate the pattern, then delete every key
containing it as a substring, counting the deletions. -/
def invalidatePattern (pattern : String) (s : Store) :
    Except CacheError (Nat × Store) :=
  if pattern = "" then
    .error ⟨.INVALID_INPUT, "Pattern must be a non-empty string"⟩
  else if pattern.length > MAX_KEY_LENGTH then
    .error ⟨.INVALID_INPUT, "Pattern exceeds maximum length of 1024"⟩
  else if pattern.data.all isPatternChar then
    .ok ((s.keys).foldl
      (fun acc k => if strIncludes k pattern then (acc.1 + 1, acc.2.del k) else acc)
      (0, s))
  else
    .error ⟨.INVALID_INPUT, "Pattern contains invalid characters"⟩

/-- `CacheStats` as returned by `getCacheStats`. -/
structure CacheStats where
  size : Nat
  maxSize : Nat
  itemCount : Nat
  hitRate : Option ℚ
  missRate : Option ℚ

/-- `getCacheStats`. -/
def getCacheStats (s : CacheState) : CacheStats :=
  let total := s.cacheHits + s.cacheMisses
  { size := s.store.size
    maxSize := CACHE_MAX_SIZE
    itemCount := s.store.size
    hitRate := if total > 0 then some ((s.cacheHits : ℚ) / (total : ℚ)) else none
    missRate := if total > 0 then some ((s.cacheMisses : ℚ) / (total : ℚ)) else none }

/-! ### Supporting lemmas -/

theorem exceptPure_eq (a : Unit) :
    (pure a : Except CacheError Unit) = .ok a := rfl

@[simp] theorem exceptBind_ok (a : Unit) (f : Unit → Except CacheError Unit) :
    (Except.ok a >>= f : Except CacheError Unit) = f a := rfl

@[simp] theorem exceptBind_err (e : CacheError) (f : Unit → Except CacheError Unit) :
    (Except.error e >>= f : Except CacheError Unit) = .error e := rfl

/-- A key the store does not have is not found, and `get` leaves the store
unchanged. -/
theorem Store.get_of_not_has {s : Store} {k : String} (h : s.has k = false) :
    s.get k = (none, s) := by
  have hfind : s.entries.find? (fun p => p.1 == k) = none := by
    rw [List.find?_eq_none]
    intro p hp
    have := (List.any_eq_false).1 h p hp
    simpa using this
  simp [Store.get, hfind]

/-- After `set k e`, the entry for `k` is found first by `get`. -/
theorem Store.get_after_set (s : Store) (k : String) (e : CacheEntry) :
    (s.set k e).get k = (some e, ⟨(k, e) :: (s.set k e).entries.filter (fun p => p.1 != k)⟩) := by
  unfold Store.set Store.get
  by_cases hlen : ((k, e) :: s.entries.filter (fun p => p.1 != k)).length > CACHE_MAX_SIZE
  · simp only [hlen, if_pos]
    have hne : s.entries.filter (fun p => p.1 != k) ≠ [] := by
      intro hnil
      simp [hnil, CACHE_MAX_SIZE] at hlen
    rw [List.dropLast_cons_of_ne_nil hne]
    simp [List.find?]
  · simp only [hlen, if_neg, if_false]
    simp [List.find?]

/-! ### C2 -/

/-- C2: for every `ttlSeconds` that is non-finite (`NaN`, `+Infinity`,
`-Infinity`) or outside `[MIN_TTL, MAX_TTL]` inclusive,
`cachedContractCall` (with otherwise valid contractId, method, args)
raises an error with code `INVALID_TTL`, the fetch function is never
invoked, and the store and the hit/miss counters are unchanged. -/
theorem cachedCall_invalid_ttl (contractId method : String) (args : JObj)
    (ttlSeconds : JSNum) (fetchFn : FetchSpec) (t1 t2 : Int) (s : CacheState)
    (h1 : validateContractId contractId = .ok ())
    (h2 : validateMethod method = .ok ())
    (h3 : validateArgs args = .ok ())
    (httl : ttlSeconds = .nan ∨ ttlSeconds = .posInf ∨ ttlSeconds = .negInf ∨
      ∃ q : Int, ttlSeconds = .finite q ∧ (q < MIN_TTL ∨ q > MAX_TTL)) :
    ∃ e : CacheError, e.code = .INVALID_TTL ∧
      cachedContractCall contractId method args ttlSeconds fetchFn t1 t2 s =
        ⟨.cacheFailure e, false, s⟩ := by
  have hT : ∃ e : CacheError, e.code = .INVALID_TTL ∧ validateTTL ttlSeconds = .error e := by
    rcases httl with h | h | h | ⟨q, hq, hb⟩
    · exact ⟨_, rfl, by rw [h]; rfl⟩
    · exact ⟨_, rfl, by rw [h]; rfl⟩
    · exact ⟨_, rfl, by rw [h]; rfl⟩
    · exact ⟨⟨.INVALID_TTL, "TTL must be between 1 and 3600 seconds"⟩, rfl,
        by rw [hq]; simp only [validateTTL, if_pos hb]⟩
  obtain ⟨e, hcode, he⟩ := hT
  refine ⟨e, hcode, ?_⟩
  unfold cachedContractCall
  simp only [bind, h1, h2, h3, he, Except.bind]

/-- Witness for C2 at a concrete out-of-range TTL. -/
theorem cachedCall_invalid_ttl_witness :
    ∃ e : CacheError, e.code = .INVALID_TTL ∧
      cachedContractCall "INSURANCE_CONTRACT" "getActivePolicies"
        [("owner", .str "GXXX")] (.finite 0) (.value (.str "ok")) 0 0
        ⟨Store.empty, 0, 0⟩ =
        ⟨.cacheFailure e, false, ⟨Store.empty, 0, 0⟩⟩ :=
  cachedCall_invalid_ttl _ _ _ _ _ _ _ _ rfl rfl rfl
    (Or.inr (Or.inr (Or.inr ⟨0, rfl, Or.inl (by decide)⟩)))

/-- A successful `generateCacheKey` implies each of its validations
succeeded. -/
theorem generateCacheKey_ok_validations {cid m : String} {args : JObj}
    {key : String} (h : generateCacheKey cid m args = .ok key) :
    validateContractId cid = .ok () ∧ validateMethod m = .ok () ∧
      validateArgs args = .ok () := by
  unfold generateCacheKey at h
  cases hc : validateContractId cid with
  | error e => rw [hc] at h; simp [bind, Except.bind] at h
  | ok u =>
    cases u
    cases hm : validateMethod m with
    | error e => rw [hc, hm] at h; simp [bind, Except.bind] at h
    | ok u =>
      cases u
      cases ha : validateArgs args with
      | error e => rw [hc, hm, ha] at h; simp [bind, Except.bind] at h
      | ok u => exact ⟨rfl, rfl, rfl⟩

/-! ### C1 -/

/-- C1: for valid inputs with a TTL in range, starting from a state whose
store does not hold the derived key, a first `cachedContractCall` whose
fetch resolves to a non-null value invokes the fetch and returns that
value, and a second call with the same TTL whose lookup happens while the
stored entry's age is below `ttlSeconds * 1000` does not invoke its fetch
and returns the same data: the fetch runs exactly once across the two
calls. -/
theorem cachedCall_second_call_hits (contractId method : String) (args : JObj)
    (q : Int) (v : JValue) (key : String) (fetch2 : FetchSpec)
    (t1 t1' t2 t2' : Int) (s : CacheState)
    (hkey : generateCacheKey contractId method args = .ok key)
    (httl : validateTTL (.finite q) = .ok ())
    (habsent : s.store.has key = false)
    (hv : v.isNull = false)
    (hage : t2 - t1' < q * 1000) :
    (cachedContractCall contractId method args (.finite q) (.value v) t1 t1' s).fetchInvoked
        = true ∧
    (cachedContractCall contractId method args (.finite q) (.value v) t1 t1' s).result
        = .success v ∧
    (cachedContractCall contractId method args (.finite q) fetch2 t2 t2'
        (cachedContractCall contractId method args (.finite q) (.value v) t1 t1' s).state).fetchInvoked
        = false ∧
    (cachedContractCall contractId method args (.finite q) fetch2 t2 t2'
        (cachedContractCall contractId method args (.finite q) (.value v) t1 t1' s).state).result
        = .success v := by
  obtain ⟨h1, h2, h3⟩ := generateCacheKey_ok_validations hkey
  have ho1 : cachedContractCall contractId method args (.finite q) (.value v) t1 t1' s =
      ⟨.success v, true,
        ⟨s.store.set key ⟨v, t1', q, contractId, method⟩,
         s.cacheHits, s.cacheMisses + 1⟩⟩ := by
    unfold cachedContractCall
    simp only [bind, h1, h2, h3, httl, hkey, Except.bind,
      Store.get_of_not_has habsent, hv, JSNum.toInt, Bool.false_eq_true,
      if_false]
  refine ⟨by rw [ho1], by rw [ho1], ?_, ?_⟩ <;>
  · rw [ho1]
    unfold cachedContractCall
    simp only [bind, h1, h2, h3, httl, hkey, Except.bind,
      Store.get_after_set, JSNum.toInt]
    rw [if_pos ⟨hage, trivial⟩]

/-- Witness for C1 at concrete inputs: two back-to-back calls, one second
apart, with TTL 45. -/
theorem cachedCall_second_call_hits_witness :
    (cachedContractCall "INSURANCE_CONTRACT" "getActivePolicies"
        [("owner", .str "GXXX")] (.finite 45) (.value (.str "policies")) 0 0
        ⟨Store.empty, 0, 0⟩).fetchInvoked = true ∧
    (cachedContractCall "INSURANCE_CONTRACT" "getActivePolicies"
        [("owner", .str "GXXX")] (.finite 45) (.value (.str "policies")) 0 0
        ⟨Store.empty, 0, 0⟩).result = .success (.str "policies") ∧
    (cachedContractCall "INSURANCE_CONTRACT" "getActivePolicies"
        [("owner", .str "GXXX")] (.finite 45) (.value (.str "other")) 1000 1000
        (cachedContractCall "INSURANCE_CONTRACT" "getActivePolicies"
          [("owner", .str "GXXX")] (.finite 45) (.value (.str "policies")) 0 0
          ⟨Store.empty, 0, 0⟩).state).fetchInvoked = false ∧
    (cachedContractCall "INSURANCE_CONTRACT" "getActivePolicies"
        [("owner", .str "GXXX")] (.finite 45) (.value (.str "other")) 1000 1000
        (cachedContractCall "INSURANCE_CONTRACT" "getActivePolicies"
          [("owner", .str "GXXX")] (.finite 45) (.value (.str "policies")) 0 0
          ⟨Store.empty, 0, 0⟩).state).result = .success (.str "policies") :=
  cachedCall_second_call_hits "INSURANCE_CONTRACT" "getActivePolicies"
    [("owner", .str "GXXX")] 45 (.str "policies")
    "INSURANCE_CONTRACT:getActivePolicies:\x7b\"owner\":\"GXXX\"\x7d"
    (.value (.str "other")) 0 0 1000 1000 ⟨Store.empty, 0, 0⟩
    rfl rfl rfl rfl (by decide)

/-! ### C4 -/

/-- C4: after a first call stores an entry under TTL 60, a second call for
the same inputs with TTL 30 invokes its fetch again: the 60-second entry
is never reused under the 30-second contract (the hit test requires the
stored TTL to equal the requested one), and the call proceeds as a miss. -/
theorem cachedCall_ttl_mismatch_refetches (contractId method : String)
    (args : JObj) (v1 v2 : JValue) (key : String) (t1 t1' t2 t2' : Int)
    (s : CacheState)
    (hkey : generateCacheKey contractId method args = .ok key)
    (habsent : s.store.has key = false)
    (hv1 : v1.isNull = false) (hv2 : v2.isNull = false) :
    (cachedContractCall contractId method args (.finite 30) (.value v2) t2 t2'
        (cachedContractCall contractId method args (.finite 60) (.value v1)
          t1 t1' s).state).fetchInvoked = true ∧
    (cachedContractCall contractId method args (.finite 30) (.value v2) t2 t2'
        (cachedContractCall contractId method args (.finite 60) (.value v1)
          t1 t1' s).state).result = .success v2 := by
  obtain ⟨h1, h2, h3⟩ := generateCacheKey_ok_validations hkey
  have ho1 : cachedContractCall contractId method args (.finite 60) (.value v1) t1 t1' s =
      ⟨.success v1, true,
        ⟨s.store.set key ⟨v1, t1', 60, contractId, method⟩,
         s.cacheHits, s.cacheMisses + 1⟩⟩ := by
    unfold cachedContractCall
    simp only [bind, h1, h2, h3, hkey, Except.bind,
      show validateTTL (.finite 60) = .ok () from rfl,
      Store.get_of_not_has habsent, hv1, JSNum.toInt, Bool.false_eq_true,
      if_false]
  rw [ho1]
  unfold cachedContractCall
  simp only [bind, h1, h2, h3, hkey, Except.bind,
    show validateTTL (.finite 30) = .ok () from rfl,
    Store.get_after_set, JSNum.toInt]
  rw [if_neg (fun h => absurd h.2 (by decide))]
  simp only [hv2, Bool.false_eq_true, if_false]
  exact ⟨trivial, trivial⟩

/-- Witness for C4 at concrete inputs. -/
theorem cachedCall_ttl_mismatch_refetches_witness :
    (cachedContractCall "INSURANCE_CONTRACT" "getActivePolicies"
        [("owner", .str "GXXX")] (.finite 30) (.value (.str "b")) 1000 1000
        (cachedContractCall "INSURANCE_CONTRACT" "getActivePolicies"
          [("owner", .str "GXXX")] (.finite 60) (.value (.str "a"))
          0 0 ⟨Store.empty, 0, 0⟩).state).fetchInvoked = true ∧
    (cachedContractCall "INSURANCE_CONTRACT" "getActivePolicies"
        [("owner", .str "GXXX")] (.finite 30) (.value (.str "b")) 1000 1000
        (cachedContractCall "INSURANCE_CONTRACT" "getActivePolicies"
          [("owner", .str "GXXX")] (.finite 60) (.value (.str "a"))
          0 0 ⟨Store.empty, 0, 0⟩).state).result = .success (.str "b") :=
  cachedCall_ttl_mismatch_refetches "INSURANCE_CONTRACT" "getActivePolicies"
    [("owner", .str "GXXX")] (.str "a") (.str "b")
    "INSURANCE_CONTRACT:getActivePolicies:\x7b\"owner\":\"GXXX\"\x7d"
    0 0 1000 1000 ⟨Store.empty, 0, 0⟩ rfl rfl rfl rfl

/-! ### C6 -/

/-- C6: for valid inputs, starting from a state whose store does not hold
the derived key, when the fetch resolves to `null` or `undefined`
`cachedContractCall` raises an error with code `INVALID_INPUT` and writes
nothing to the store: the store is unchanged and the key is still absent
afterwards. -/
theorem cachedCall_null_fetch_not_cached (contractId method : String)
    (args : JObj) (q : Int) (key : String) (fetchFn : FetchSpec)
    (t1 t2 : Int) (s : CacheState)
    (hkey : generateCacheKey contractId method args = .ok key)
    (httl : validateTTL (.finite q) = .ok ())
    (habsent : s.store.has key = false)
    (hf : fetchFn = .value .null ∨ fetchFn = .undef) :
    (cachedContractCall contractId method args (.finite q) fetchFn t1 t2 s).result
        = .cacheFailure ⟨.INVALID_INPUT, "fetchFn returned null or undefined - cannot cache"⟩ ∧
    (cachedContractCall contractId method args (.finite q) fetchFn t1 t2 s).fetchInvoked
        = true ∧
    (cachedContractCall contractId method args (.finite q) fetchFn t1 t2 s).state.store
        = s.store ∧
    (cachedContractCall contractId method args (.finite q) fetchFn t1 t2 s).state.store.has key
        = false := by
  obtain ⟨h1, h2, h3⟩ := generateCacheKey_ok_validations hkey
  have ho : cachedContractCall contractId method args (.finite q) fetchFn t1 t2 s =
      ⟨.cacheFailure ⟨.INVALID_INPUT, "fetchFn returned null or undefined - cannot cache"⟩,
       true, ⟨s.store, s.cacheHits, s.cacheMisses + 1⟩⟩ := by
    unfold cachedContractCall
    rcases hf with hf | hf <;>
    simp only [hf, bind, h1, h2, h3, httl, hkey, Except.bind,
      Store.get_of_not_has habsent, JSNum.toInt, JValue.isNull, if_true]
  rw [ho]
  exact ⟨rfl, rfl, rfl, habsent⟩

/-- Witness for C6 at concrete inputs (fetch resolving to JSON `null`). -/
theorem cachedCall_null_fetch_not_cached_witness :
    (cachedContractCall "INSURANCE_CONTRACT" "getActivePolicies"
        [("owner", .str "GXXX")] (.finite 45) (.value .null) 0 0
        ⟨Store.empty, 0, 0⟩).result
        = .cacheFailure ⟨.INVALID_INPUT, "fetchFn returned null or undefined - cannot cache"⟩ ∧
    (cachedContractCall "INSURANCE_CONTRACT" "getActivePolicies"
        [("owner", .str "GXXX")] (.finite 45) (.value .null) 0 0
        ⟨Store.empty, 0, 0⟩).fetchInvoked = true ∧
    (cachedContractCall "INSURANCE_CONTRACT" "getActivePolicies"
        [("owner", .str "GXXX")] (.finite 45) (.value .null) 0 0
        ⟨Store.empty, 0, 0⟩).state.store = Store.empty ∧
    (cachedContractCall "INSURANCE_CONTRACT" "getActivePolicies"
        [("owner", .str "GXXX")] (.finite 45) (.value .null) 0 0
        ⟨Store.empty, 0, 0⟩).state.store.has
        "INSURANCE_CONTRACT:getActivePolicies:\x7b\"owner\":\"GXXX\"\x7d" = false :=
  cachedCall_null_fetch_not_cached "INSURANCE_CONTRACT" "getActivePolicies"
    [("owner", .str "GXXX")] 45
    "INSURANCE_CONTRACT:getActivePolicies:\x7b\"owner\":\"GXXX\"\x7d"
    (.value .null) 0 0 ⟨Store.empty, 0, 0⟩ rfl rfl rfl (Or.inl rfl)

/-! ### C9 -/

/-- C9: when the fetch of a valid, missing call rejects, the original
error propagates (`fetchFailure`, not a `CacheError`), the store is not
written, the miss counter has been incremented and the hit counter is
unchanged — the failed call still counts as a miss in the statistics. -/
theorem cachedCall_fetch_failure_counts_miss (contractId method : String)
    (args : JObj) (q : Int) (key : String) (t1 t2 : Int) (s : CacheState)
    (hkey : generateCacheKey contractId method args = .ok key)
    (httl : validateTTL (.finite q) = .ok ())
    (habsent : s.store.has key = false) :
    cachedContractCall contractId method args (.finite q) .throws t1 t2 s =
      ⟨.fetchFailure, true, ⟨s.store, s.cacheHits, s.cacheMisses + 1⟩⟩ ∧
    getCacheStats (cachedContractCall contractId method args (.finite q)
        .throws t1 t2 s).state =
      getCacheStats ⟨s.store, s.cacheHits, s.cacheMisses + 1⟩ := by
  obtain ⟨h1, h2, h3⟩ := generateCacheKey_ok_validations hkey
  have ho : cachedContractCall contractId method args (.finite q) .throws t1 t2 s =
      ⟨.fetchFailure, true, ⟨s.store, s.cacheHits, s.cacheMisses + 1⟩⟩ := by
    unfold cachedContractCall
    simp only [bind, h1, h2, h3, httl, hkey, Except.bind,
      Store.get_of_not_has habsent, JSNum.toInt]
  exact ⟨ho, by rw [ho]⟩

/-- Witness for C9 at concrete inputs. -/
theorem cachedCall_fetch_failure_counts_miss_witness :
    cachedContractCall "INSURANCE_CONTRACT" "getActivePolicies"
        [("owner", .str "GXXX")] (.finite 45) .throws 0 0 ⟨Store.empty, 2, 3⟩ =
      ⟨.fetchFailure, true, ⟨Store.empty, 2, 4⟩⟩ ∧
    getCacheStats (cachedContractCall "INSURANCE_CONTRACT" "getActivePolicies"
        [("owner", .str "GXXX")] (.finite 45) .throws 0 0 ⟨Store.empty, 2, 3⟩).state =
      getCacheStats ⟨Store.empty, 2, 4⟩ :=
  cachedCall_fetch_failure_counts_miss "INSURANCE_CONTRACT" "getActivePolicies"
    [("owner", .str "GXXX")] 45
    "INSURANCE_CONTRACT:getActivePolicies:\x7b\"owner\":\"GXXX\"\x7d"
    0 0 ⟨Store.empty, 2, 3⟩ rfl rfl rfl

/-! ### C10 -/

/-- Deleting a key removes it. -/
theorem Store.has_del (s : Store) (k : String) : (s.del k).has k = false := by
  simp only [Store.del, Store.has, List.any_eq_false, List.mem_filter]
  intro p hp
  simp only [bne_iff_ne, ne_eq] at hp
  simp [hp.2]

/-- Any call that finds its derived key absent invokes its fetch,
whatever the fetch then does. -/
theorem cachedCall_miss_invokes_fetch (contractId method : String)
    (args : JObj) (q : Int) (key : String) (fetchFn : FetchSpec)
    (t1 t2 : Int) (s : CacheState)
    (hkey : generateCacheKey contractId method args = .ok key)
    (httl : validateTTL (.finite q) = .ok ())
    (habsent : s.store.has key = false) :
    (cachedContractCall contractId method args (.finite q) fetchFn t1 t2 s).fetchInvoked
      = true := by
  obtain ⟨h1, h2, h3⟩ := generateCacheKey_ok_validations hkey
  unfold cachedContractCall
  simp only [bind, h1, h2, h3, httl, hkey, Except.bind,
    Store.get_of_not_has habsent, JSNum.toInt]
  cases fetchFn with
  | value v => by_cases hv : v.isNull <;> simp [hv]
  | undef => rfl
  | throws => rfl

/-- C10: if the store holds an entry for the derived key that is expired
or was stored under a different TTL, the call deletes it before fetching;
when the fetch then rejects, the key is absent from the store after the
failed call — even if the entry was still fresh under its own stored
TTL — and a subsequent call with the entry's original TTL misses
(invokes its fetch). -/
theorem cachedCall_stale_entry_deleted_before_fetch (contractId method : String)
    (args : JObj) (q : Int) (key : String) (entry : CacheEntry)
    (store1 : Store) (fetch2 : FetchSpec) (t1 t2 t3 t4 : Int) (s : CacheState)
    (hkey : generateCacheKey contractId method args = .ok key)
    (httl : validateTTL (.finite q) = .ok ())
    (hfound : s.store.get key = (some entry, store1))
    (hstale : ¬(t1 - entry.timestamp < q * 1000 ∧ entry.ttl = q))
    (httl0 : validateTTL (.finite entry.ttl) = .ok ()) :
    (cachedContractCall contractId method args (.finite q) .throws t1 t2 s).result
        = .fetchFailure ∧
    (cachedContractCall contractId method args (.finite q) .throws t1 t2 s).state.store.has key
        = false ∧
    (cachedContractCall contractId method args (.finite entry.ttl) fetch2 t3 t4
        (cachedContractCall contractId method args (.finite q) .throws t1 t2 s).state).fetchInvoked
        = true := by
  obtain ⟨h1, h2, h3⟩ := generateCacheKey_ok_validations hkey
  have ho : cachedContractCall contractId method args (.finite q) .throws t1 t2 s =
      ⟨.fetchFailure, true, ⟨store1.del key, s.cacheHits, s.cacheMisses + 1⟩⟩ := by
    unfold cachedContractCall
    simp only [bind, h1, h2, h3, httl, hkey, Except.bind, hfound, JSNum.toInt]
    rw [if_neg hstale]
  refine ⟨by rw [ho], by rw [ho]; exact Store.has_del store1 key, ?_⟩
  rw [ho]
  exact cachedCall_miss_invokes_fetch contractId method args entry.ttl key
    fetch2 t3 t4 _ hkey httl0 (Store.has_del store1 key)

/-- Witness for C10: a 60-second entry, still fresh at age one second, is
requested under TTL 30 with a rejecting fetch. -/
theorem cachedCall_stale_entry_deleted_before_fetch_witness :
    (cachedContractCall "INSURANCE_CONTRACT" "getActivePolicies"
        [("owner", .str "GXXX")] (.finite 30) .throws 1000 1000
        ⟨⟨[("INSURANCE_CONTRACT:getActivePolicies:\x7b\"owner\":\"GXXX\"\x7d",
            ⟨.str "a", 0, 60, "INSURANCE_CONTRACT", "getActivePolicies"⟩)]⟩, 0, 0⟩).result
        = .fetchFailure ∧
    (cachedContractCall "INSURANCE_CONTRACT" "getActivePolicies"
        [("owner", .str "GXXX")] (.finite 30) .throws 1000 1000
        ⟨⟨[("INSURANCE_CONTRACT:getActivePolicies:\x7b\"owner\":\"GXXX\"\x7d",
            ⟨.str "a", 0, 60, "INSURANCE_CONTRACT", "getActivePolicies"⟩)]⟩, 0, 0⟩).state.store.has
        "INSURANCE_CONTRACT:getActivePolicies:\x7b\"owner\":\"GXXX\"\x7d" = false ∧
    (cachedContractCall "INSURANCE_CONTRACT" "getActivePolicies"
        [("owner", .str "GXXX")]
        (.finite (CacheEntry.ttl ⟨.str "a", 0, 60, "INSURANCE_CONTRACT", "getActivePolicies"⟩))
        (.value (.str "b")) 2000 2000
        (cachedContractCall "INSURANCE_CONTRACT" "getActivePolicies"
          [("owner", .str "GXXX")] (.finite 30) .throws 1000 1000
          ⟨⟨[("INSURANCE_CONTRACT:getActivePolicies:\x7b\"owner\":\"GXXX\"\x7d",
              ⟨.str "a", 0, 60, "INSURANCE_CONTRACT", "getActivePolicies"⟩)]⟩, 0, 0⟩).state).fetchInvoked
        = true :=
  cachedCall_stale_entry_deleted_before_fetch "INSURANCE_CONTRACT"
    "getActivePolicies" [("owner", .str "GXXX")] 30
    "INSURANCE_CONTRACT:getActivePolicies:\x7b\"owner\":\"GXXX\"\x7d"
    ⟨.str "a", 0, 60, "INSURANCE_CONTRACT", "getActivePolicies"⟩
    ⟨[("INSURANCE_CONTRACT:getActivePolicies:\x7b\"owner\":\"GXXX\"\x7d",
        ⟨.str "a", 0, 60, "INSURANCE_CONTRACT", "getActivePolicies"⟩)]⟩
    (.value (.str "b")) 1000 1000 2000 2000
    ⟨⟨[("INSURANCE_CONTRACT:getActivePolicies:\x7b\"owner\":\"GXXX\"\x7d",
        ⟨.str "a", 0, 60, "INSURANCE_CONTRACT", "getActivePolicies"⟩)]⟩, 0, 0⟩
    rfl rfl rfl (by decide) rfl

/-! ### C7 -/

/-- The deletion loop of `invalidatePattern`, over any snapshot of keys:
the count grows by the matching snapshot keys, and exactly the entries
whose key is both in the snapshot and matching are removed. -/
theorem foldl_del_filter (pattern : String) (ks : List String) (n : Nat)
    (st : Store) :
    ks.foldl
        (fun acc k => if strIncludes k pattern then (acc.1 + 1, acc.2.del k) else acc)
        (n, st) =
      (n + (ks.filter (fun k => strIncludes k pattern)).length,
       ⟨st.entries.filter
          (fun p => !(ks.contains p.1 && strIncludes p.1 pattern))⟩) := by
  induction ks generalizing n st with
  | nil => simp
  | cons k ks ih =>
    cases hk : strIncludes k pattern with
    | true =>
      rw [List.foldl_cons, if_pos hk]
      dsimp only
      rw [ih (n + 1) (st.del k)]
      refine congrArg₂ Prod.mk ?_ (congrArg Store.mk ?_)
      · simp [hk]
        omega
      · show (List.filter _ (st.del k).entries) = _
        simp only [Store.del, List.filter_filter]
        apply List.filter_congr
        intro p hp
        by_cases hpk : p.1 = k
        · simp [hpk, hk]
        · simp [hpk, hk]
    | false =>
      rw [List.foldl_cons, if_neg (by simp [hk])]
      rw [ih n st]
      refine congrArg₂ Prod.mk ?_ (congrArg Store.mk ?_)
      · simp [hk]
      · apply List.filter_congr
        intro p hp
        by_cases hpk : p.1 = k
        · simp [hpk, hk]
        · simp [hpk]

/-- C7: `invalidatePattern` raises an `INVALID_INPUT` error exactly when
the pattern is empty, longer than `MAX_KEY_LENGTH`, or contains a
character outside the allowed set; for an accepted pattern it deletes
exactly the keys of the store containing the pattern as a substring and
returns their count. -/
theorem invalidatePattern_spec (pattern : String) (s : Store) :
    ((∃ e : CacheError, e.code = .INVALID_INPUT ∧
        invalidatePattern pattern s = .error e) ↔
      (pattern = "" ∨ pattern.length > MAX_KEY_LENGTH ∨
        ∃ c ∈ pattern.data, isPatternChar c = false)) ∧
    (pattern ≠ "" → pattern.length ≤ MAX_KEY_LENGTH →
      (∀ c ∈ pattern.data, isPatternChar c = true) →
      invalidatePattern pattern s =
        .ok ((s.keys.filter (fun k => strIncludes k pattern)).length,
             ⟨s.entries.filter (fun p => !(strIncludes p.1 pattern))⟩)) := by
  constructor
  · constructor
    · intro ⟨e, hcode, herr⟩
      unfold invalidatePattern at herr
      by_cases h0 : pattern = ""
      · exact Or.inl h0
      by_cases hlen : pattern.length > MAX_KEY_LENGTH
      · exact Or.inr (Or.inl hlen)
      by_cases hall : pattern.data.all isPatternChar
      · rw [if_neg h0, if_neg hlen, if_pos hall] at herr
        exact absurd herr (by simp)
      · refine Or.inr (Or.inr ?_)
        have := (List.all_eq_true).not.1 hall
        push_neg at this
        obtain ⟨c, hc, hcf⟩ := this
        exact ⟨c, hc, by simpa using hcf⟩
    · intro h
      unfold invalidatePattern
      rcases h with h0 | hlen | ⟨c, hc, hcf⟩
      · exact ⟨⟨.INVALID_INPUT, "Pattern must be a non-empty string"⟩, rfl,
          by rw [if_pos h0]⟩
      · refine ⟨⟨.INVALID_INPUT, "Pattern exceeds maximum length of 1024"⟩, rfl, ?_⟩
        rw [if_neg (fun h => by subst h; exact absurd hlen (by decide)), if_pos hlen]
      · have hall : pattern.data.all isPatternChar = false := by
          rw [List.all_eq_false]
          exact ⟨c, hc, by simp [hcf]⟩
        by_cases h0 : pattern = ""
        · exact ⟨⟨.INVALID_INPUT, "Pattern must be a non-empty string"⟩, rfl,
            by rw [if_pos h0]⟩
        by_cases hlen : pattern.length > MAX_KEY_LENGTH
        · exact ⟨⟨.INVALID_INPUT, "Pattern exceeds maximum length of 1024"⟩, rfl,
            by rw [if_neg h0, if_pos hlen]⟩
        · refine ⟨⟨.INVALID_INPUT, "Pattern contains invalid characters"⟩, rfl, ?_⟩
          rw [if_neg h0, if_neg hlen, if_neg (by simp [hall])]
  · intro h0 hlen hall
    unfold invalidatePattern
    rw [if_neg h0, if_neg (by omega),
      if_pos (by rw [List.all_eq_true]; exact hall)]
    rw [foldl_del_filter]
    refine congrArg Except.ok (congrArg₂ Prod.mk (by simp) (congrArg Store.mk ?_))
    apply List.filter_congr
    intro p hp
    have hmem : p.1 ∈ s.keys := List.mem_map_of_mem Prod.fst hp
    have hcont : (s.keys).contains p.1 = true := List.elem_eq_true_of_mem hmem
    rw [hcont, Bool.true_and]

/-- Witness for C7: a pattern deleting two of three entries. -/
theorem invalidatePattern_spec_witness :
    invalidatePattern "INSURANCE_CONTRACT"
        ⟨[("INSURANCE_CONTRACT:getPolicy:p1", ⟨.str "a", 0, 45, "", ""⟩),
          ("SAVINGS_GOALS_CONTRACT:getGoals:g", ⟨.str "b", 0, 30, "", ""⟩),
          ("INSURANCE_CONTRACT:getActivePolicies:o", ⟨.str "c", 0, 45, "", ""⟩)]⟩ =
      .ok ((( Store.keys
              ⟨[("INSURANCE_CONTRACT:getPolicy:p1", ⟨.str "a", 0, 45, "", ""⟩),
                ("SAVINGS_GOALS_CONTRACT:getGoals:g", ⟨.str "b", 0, 30, "", ""⟩),
                ("INSURANCE_CONTRACT:getActivePolicies:o", ⟨.str "c", 0, 45, "", ""⟩)]⟩).filter
            (fun k => strIncludes k "INSURANCE_CONTRACT")).length,
        ⟨[("INSURANCE_CONTRACT:getPolicy:p1", ⟨.str "a", 0, 45, "", ""⟩),
          ("SAVINGS_GOALS_CONTRACT:getGoals:g", ⟨.str "b", 0, 30, "", ""⟩),
          ("INSURANCE_CONTRACT:getActivePolicies:o", ⟨.str "c", 0, 45, "", ""⟩)].filter
            (fun p => !(strIncludes p.1 "INSURANCE_CONTRACT"))⟩) :=
  (invalidatePattern_spec "INSURANCE_CONTRACT"
    ⟨[("INSURANCE_CONTRACT:getPolicy:p1", ⟨.str "a", 0, 45, "", ""⟩),
      ("SAVINGS_GOALS_CONTRACT:getGoals:g", ⟨.str "b", 0, 30, "", ""⟩),
      ("INSURANCE_CONTRACT:getActivePolicies:o", ⟨.str "c", 0, 45, "", ""⟩)]⟩).2
    (by decide) (by decide) (by decide)

/-! ### C8 -/

/-- A single operation on the Store, as exposed by its interface. -/
inductive StoreOp where
  | getOp : String → StoreOp
  | setOp : String → CacheEntry → StoreOp
  | delOp : String → StoreOp

/-- Apply one operation to the store (keeping only the store). -/
def applyOp (s : Store) : StoreOp → Store
  | .getOp k => (s.get k).2
  | .setOp k e => s.set k e
  | .delOp k => s.del k

/-- Apply a sequence of operations to the store. -/
def applyOps (ops : List StoreOp) (s : Store) : Store := ops.foldl applyOp s

/-- Removing a non-member via `filter` keeps the length; removing with a
witness member strictly shrinks. -/
theorem length_filter_lt_of_mem {α : Type} {l : List α} {x : α}
    {q : α → Bool} (hx : x ∈ l) (hq : q x = false) :
    (l.filter q).length < l.length := by
  induction l with
  | nil => cases hx
  | cons a l ih =>
    rcases List.mem_cons.1 hx with rfl | hx
    · have hle := List.length_filter_le q l
      simp only [List.filter_cons, hq, Bool.false_eq_true, if_false,
        List.length_cons]
      omega
    · by_cases ha : q a = true
      · simp only [List.filter_cons, ha, if_true, List.length_cons]
        exact Nat.succ_lt_succ (ih hx)
      · simp only [List.filter_cons, ha, if_false, List.length_cons]
        exact Nat.lt_succ_of_lt (ih hx)

/-- `get` never grows the store. -/
theorem Store.size_get_le (s : Store) (k : String) :
    ((s.get k).2).size ≤ s.size := by
  unfold Store.get
  cases hf : s.entries.find? (fun p => p.1 == k) with
  | none => exact le_refl _
  | some pe =>
    have hmem := List.mem_of_find?_eq_some hf
    have hpe : (pe.1 == k) = true := by
      have := List.find?_some hf
      simpa using this
    have hlt : (s.entries.filter (fun p => p.1 != k)).length < s.entries.length :=
      length_filter_lt_of_mem hmem (by simp [bne, hpe])
    simp only [Store.size, List.length_cons]
    omega

/-- `del` never grows the store. -/
theorem Store.size_del_le (s : Store) (k : String) :
    (s.del k).size ≤ s.size :=
  List.length_filter_le _ _

/-- `set` preserves the capacity bound. -/
theorem Store.size_set_le (s : Store) (k : String) (e : CacheEntry)
    (h : s.size ≤ CACHE_MAX_SIZE) : (s.set k e).size ≤ CACHE_MAX_SIZE := by
  have hle := List.length_filter_le (fun p => p.1 != k) s.entries
  rw [show s.size = s.entries.length from rfl] at h
  unfold Store.set
  dsimp only [Store.size]
  by_cases hlen : ((k, e) :: s.entries.filter (fun p => p.1 != k)).length > CACHE_MAX_SIZE
  · rw [if_pos hlen, List.length_dropLast, List.length_cons]
    omega
  · rw [if_neg hlen, List.length_cons]
    rw [List.length_cons] at hlen
    omega

/-- C8: the Store never exceeds `CACHE_MAX_SIZE` entries after any
sequence of operations from the empty store; inserting a distinct 501st
key into a full store evicts exactly the least-recently-used (last)
entry, keeping the new entry most-recently-used; and a successful `get`
advances the found entry's recency to most-recently-used. -/
theorem store_lru_bound_and_eviction (ops : List StoreOp) (s : Store)
    (k : String) (e : CacheEntry) (s2 : Store) (k2 : String)
    (e2 : CacheEntry) (s2' : Store)
    (h500 : s.size = CACHE_MAX_SIZE) (hk : s.has k = false)
    (hget : s2.get k2 = (some e2, s2')) :
    (applyOps ops Store.empty).size ≤ CACHE_MAX_SIZE ∧
    (s.set k e).size = CACHE_MAX_SIZE ∧
    (s.set k e).entries = (k, e) :: s.entries.dropLast ∧
    s2'.entries = (k2, e2) :: s2.entries.filter (fun p => p.1 != k2) := by
  have hfilter : s.entries.filter (fun p => p.1 != k) = s.entries := by
    rw [List.filter_eq_self]
    intro p hp
    have := (List.any_eq_false).1 hk p hp
    simpa [bne] using this
  have hne : s.entries ≠ [] := by
    intro h
    rw [Store.size, h] at h500
    exact absurd h500 (by decide)
  have hset : (s.set k e).entries = (k, e) :: s.entries.dropLast := by
    unfold Store.set
    dsimp only
    rw [hfilter]
    have : ((k, e) :: s.entries).length > CACHE_MAX_SIZE := by
      rw [List.length_cons]
      rw [Store.size] at h500
      omega
    rw [if_pos this, List.dropLast_cons_of_ne_nil hne]
  refine ⟨?_, ?_, hset, ?_⟩
  · have : ∀ ops st, Store.size st ≤ CACHE_MAX_SIZE →
        (applyOps ops st).size ≤ CACHE_MAX_SIZE := by
      intro ops
      induction ops with
      | nil => intro st h; exact h
      | cons op ops ih =>
        intro st h
        show (applyOps ops (applyOp st op)).size ≤ CACHE_MAX_SIZE
        refine ih _ ?_
        cases op with
        | getOp k => exact le_trans (Store.size_get_le st k) h
        | setOp k e => exact Store.size_set_le st k e h
        | delOp k => exact le_trans (Store.size_del_le st k) h
    exact this ops Store.empty (by decide)
  · rw [Store.size, hset, List.length_cons, List.length_dropLast]
    rw [Store.size] at h500
    have := List.length_pos.2 hne
    omega
  · unfold Store.get at hget
    cases hf : s2.entries.find? (fun p => p.1 == k2) with
    | none => rw [hf] at hget; cases hget
    | some pe =>
      obtain ⟨k', v⟩ := pe
      rw [hf] at hget
      have h1 : some v = some e2 := congrArg Prod.fst hget
      have h2 : v = e2 := by injection h1
      have h3 := congrArg Prod.snd hget
      dsimp only at h3
      subst h2
      rw [← h3]

/-- A concrete full store: 500 distinct keys `k0`, `k1`, …, `k499`. -/
def fullStore : Store :=
  ⟨(List.range 500).map (fun i => ("k" ++ (⟨natDigits i⟩ : String),
    (⟨.null, 0, 45, "", ""⟩ : CacheEntry)))⟩

set_option maxRecDepth 100000 in
/-- Witness for C8: a short operation sequence, an eviction out of
`fullStore`, and a recency-refreshing `get` on a two-entry store. -/
theorem store_lru_bound_and_eviction_witness :
    (applyOps [.setOp "a" ⟨.str "x", 0, 45, "", ""⟩, .getOp "a", .delOp "b"]
        Store.empty).size ≤ CACHE_MAX_SIZE ∧
    (fullStore.set "zz" ⟨.str "x", 0, 45, "", ""⟩).size = CACHE_MAX_SIZE ∧
    (fullStore.set "zz" ⟨.str "x", 0, 45, "", ""⟩).entries =
      ("zz", ⟨.str "x", 0, 45, "", ""⟩) :: fullStore.entries.dropLast ∧
    (Store.entries ⟨[("b", ⟨.str "b", 0, 45, "", ""⟩), ("a", ⟨.str "a", 0, 45, "", ""⟩)]⟩) =
      ("b", ⟨.str "b", 0, 45, "", ""⟩) ::
        (Store.entries ⟨[("a", ⟨.str "a", 0, 45, "", ""⟩), ("b", ⟨.str "b", 0, 45, "", ""⟩)]⟩).filter
          (fun p => p.1 != "b") :=
  store_lru_bound_and_eviction
    [.setOp "a" ⟨.str "x", 0, 45, "", ""⟩, .getOp "a", .delOp "b"]
    fullStore "zz" ⟨.str "x", 0, 45, "", ""⟩
    ⟨[("a", ⟨.str "a", 0, 45, "", ""⟩), ("b", ⟨.str "b", 0, 45, "", ""⟩)]⟩
    "b" ⟨.str "b", 0, 45, "", ""⟩
    ⟨[("b", ⟨.str "b", 0, 45, "", ""⟩), ("a", ⟨.str "a", 0, 45, "", ""⟩)]⟩
    (by decide) (by decide) rfl

/-! ### Canonicalization: permutation and length lemmas -/

/-- Inserting into a sorted list is a permutation of consing. -/
theorem insertSorted_perm (k : String) (l : List String) :
    (insertSorted k l).Perm (k :: l) := by
  induction l with
  | nil => exact List.Perm.refl _
  | cons x xs ih =>
    unfold insertSorted
    by_cases hc : strLe k x
    · rw [if_pos hc]
    · rw [if_neg hc]
      exact (ih.cons x).trans (List.Perm.swap k x xs)

/-- Sorting the key list permutes it. -/
theorem sortStrings_perm (l : List String) : (sortStrings l).Perm l := by
  induction l with
  | nil => exact List.Perm.refl _
  | cons x xs ih => exact (insertSorted_perm x (sortStrings xs)).trans (ih.cons x)

/-- Looking a key up past a non-matching head. -/
theorem jlookup_cons_ne (k k' : String) (v : JValue) (l : JObj)
    (h : k' ≠ k) : jlookup k' ((k, v) :: l) = jlookup k' l := by
  have hb : (k' == k) = false := beq_eq_false_iff_ne.mpr h
  simp [jlookup, List.lookup, hb]

/-- Rebuilding an object from its own key list and lookups is the
identity when the keys are pairwise distinct. -/
theorem map_jlookup_self (args : JObj) (h : (args.map Prod.fst).Nodup) :
    (args.map Prod.fst).map (fun k => (k, jlookup k args)) = args := by
  induction args with
  | nil => rfl
  | cons p l ih =>
    obtain ⟨k, v⟩ := p
    simp only [List.map_cons] at h ⊢
    rw [List.nodup_cons] at h
    congr 1
    · simp [jlookup, List.lookup]
    · rw [show (List.map (fun k' => (k', jlookup k' ((k, v) :: l))) (l.map Prod.fst)) =
          (List.map (fun k' => (k', jlookup k' l)) (l.map Prod.fst)) from ?_]
      · exact ih h.2
      · apply List.map_congr_left
        intro k' hk'
        rw [jlookup_cons_ne k k' v l (fun he => h.1 (he ▸ hk'))]

/-- For pairwise-distinct keys, the canonicalized object is a permutation
of the original. -/
theorem sortObj_perm (args : JObj) (h : (args.map Prod.fst).Nodup) :
    (sortObj args).Perm args := by
  have h2 := map_jlookup_self args h
  have h3 : ((sortStrings (args.map Prod.fst)).map
      (fun k => (k, jlookup k args))).Perm
      ((args.map Prod.fst).map (fun k => (k, jlookup k args))) :=
    (sortStrings_perm (args.map Prod.fst)).map _
  rw [h2] at h3
  exact h3

/-- Length of the field serialization of a non-empty object. -/
theorem serObj_cons_length (p : String × JValue) (l : List (String × JValue)) :
    (serObj (p :: l)).length =
      (serStr p.1).length + 1 + (ser p.2).length +
        (if l.isEmpty then 0 else 1 + (serObj l).length) := by
  obtain ⟨k, v⟩ := p
  cases l with
  | nil =>
    simp [serObj, List.length_append]
    omega
  | cons q l =>
    simp [serObj, List.length_append]
    omega

/-- The serialized length of an object's fields is invariant under
permutation of the fields. -/
theorem serObj_length_perm {fs fs' : List (String × JValue)}
    (h : fs.Perm fs') : (serObj fs).length = (serObj fs').length := by
  induction h with
  | nil => rfl
  | cons x h ih =>
    rw [serObj_cons_length, serObj_cons_length, ih]
    congr 2
    rename_i l1 l2
    rcases l1 with _ | ⟨a, l1⟩ <;> rcases l2 with _ | ⟨b, l2⟩
    · rfl
    · exact absurd h.length_eq (by simp)
    · exact absurd h.length_eq (by simp)
    · rfl
  | swap x y l =>
    rw [serObj_cons_length, serObj_cons_length, serObj_cons_length,
      serObj_cons_length]
    simp [List.isEmpty]
    omega
  | trans h1 h2 ih1 ih2 => exact ih1.trans ih2

/-- Canonicalization never changes the serialized length (for
pairwise-distinct keys). -/
theorem ser_sortObj_length (args : JObj) (h : (args.map Prod.fst).Nodup) :
    (ser (.obj (sortObj args))).length = (ser (.obj args)).length := by
  have hperm := sortObj_perm args h
  simp only [ser, List.length_cons, List.length_append]
  rw [serObj_length_perm hperm]

/-! ### C5 -/

/-- When the derived key exceeds `MAX_KEY_LENGTH`, `generateCacheKey`
fails with `INVALID_INPUT` even though every validation succeeded. -/
theorem generateCacheKey_too_long (contractId method : String) (args : JObj)
    (h1 : validateContractId contractId = .ok ())
    (h2 : validateMethod method = .ok ())
    (h3 : validateArgs args = .ok ())
    (hkeylen : (contractId ++ ":" ++ method ++ ":"
        ++ jsonStringify (.obj (sortObj args))).length > MAX_KEY_LENGTH) :
    generateCacheKey contractId method args =
      .error ⟨.INVALID_INPUT, "Cache key exceeds maximum length of 1024"⟩ := by
  unfold generateCacheKey
  simp only [bind, h1, h2, h3, Except.bind]
  rw [if_pos hkeylen]
  rfl

/-- A call whose derived key is too long fails with `INVALID_INPUT`
before any store access or fetch. -/
theorem cachedCall_key_too_long (contractId method : String) (args : JObj)
    (ttlSeconds : JSNum) (fetchFn : FetchSpec) (t1 t2 : Int) (s : CacheState)
    (h1 : validateContractId contractId = .ok ())
    (h2 : validateMethod method = .ok ())
    (h3 : validateArgs args = .ok ())
    (httl : validateTTL ttlSeconds = .ok ())
    (hkeylen : (contractId ++ ":" ++ method ++ ":"
        ++ jsonStringify (.obj (sortObj args))).length > MAX_KEY_LENGTH) :
    cachedContractCall contractId method args ttlSeconds fetchFn t1 t2 s =
      ⟨.cacheFailure ⟨.INVALID_INPUT, "Cache key exceeds maximum length of 1024"⟩,
       false, s⟩ := by
  unfold cachedContractCall
  simp only [bind, h1, h2, h3, httl, Except.bind,
    generateCacheKey_too_long contractId method args h1 h2 h3 hkeylen]

/-- C5 amended: an args object serializing to `MAX_ARGS_SIZE + 1`
characters is rejected with `INVALID_INPUT` by the args-size check, the
fetch never invoked and the state untouched; an args object serializing
to exactly `MAX_ARGS_SIZE` characters passes `validateArgs`, but the call
still raises `INVALID_INPUT` — the derived key
`contractId ++ ":" ++ method ++ ":" ++ serializedArgs` then necessarily
exceeds `MAX_KEY_LENGTH`, so no such call can succeed. -/
theorem args_size_boundary_amended (contractId method : String)
    (args1 args2 : JObj) (ttlSeconds : JSNum) (fetchFn : FetchSpec)
    (t1 t2 : Int) (s : CacheState)
    (h1 : validateContractId contractId = .ok ())
    (h2 : validateMethod method = .ok ())
    (httl : validateTTL ttlSeconds = .ok ())
    (hbig : (ser (.obj args1)).length = MAX_ARGS_SIZE + 1)
    (hexact : (ser (.obj args2)).length = MAX_ARGS_SIZE)
    (hnodup : (args2.map Prod.fst).Nodup) :
    cachedContractCall contractId method args1 ttlSeconds fetchFn t1 t2 s =
      ⟨.cacheFailure ⟨.INVALID_INPUT, "Args size exceeds maximum of 10240 bytes"⟩,
       false, s⟩ ∧
    validateArgs args2 = .ok () ∧
    cachedContractCall contractId method args2 ttlSeconds fetchFn t1 t2 s =
      ⟨.cacheFailure ⟨.INVALID_INPUT, "Cache key exceeds maximum length of 1024"⟩,
       false, s⟩ := by
  have hargs1 : validateArgs args1 =
      .error ⟨.INVALID_INPUT, "Args size exceeds maximum of 10240 bytes"⟩ := by
    unfold validateArgs
    rw [if_pos (by rw [hbig]; decide)]
  have hargs2 : validateArgs args2 = .ok () := by
    unfold validateArgs
    rw [if_neg (by rw [hexact]; decide)]
  refine ⟨?_, hargs2, ?_⟩
  · unfold cachedContractCall
    simp only [bind, h1, h2, hargs1, Except.bind]
  · refine cachedCall_key_too_long contractId method args2 ttlSeconds fetchFn
      t1 t2 s h1 h2 hargs2 httl ?_
    have hsorted : (ser (.obj (sortObj args2))).length = MAX_ARGS_SIZE := by
      rw [ser_sortObj_length args2 hnodup, hexact]
    have : (jsonStringify (.obj (sortObj args2))).length = MAX_ARGS_SIZE := hsorted
    simp only [String.length_append, this, MAX_ARGS_SIZE, MAX_KEY_LENGTH]
    omega

/-- Escaping the letter `x` is the identity. -/
theorem escChar_x : escChar 'x' = ['x'] := rfl

/-- A run of `x`s needs no escaping. -/
theorem flatMap_escChar_replicate (n : Nat) :
    (List.replicate n 'x').flatMap escChar = List.replicate n 'x' := by
  induction n with
  | zero => rfl
  | succ n ih => simp [List.replicate_succ, ih, escChar_x]

/-- Serialized length of the single-field object whose value is a run of
`n` letters `x`. -/
theorem ser_obj_xrun_length (n : Nat) :
    (ser (.obj [("a", .str (⟨List.replicate n 'x'⟩ : String))])).length
      = n + 8 := by
  simp [ser, serObj, serStr, flatMap_escChar_replicate, List.length_append,
    show escChar 'a' = ['a'] from rfl]

/-- C5 counterexample: an args object serializing to exactly
`MAX_ARGS_SIZE` (10240) characters does not make the call succeed — it
passes `validateArgs` but the call still raises a validation error with
code `INVALID_INPUT`, because the derived key exceeds `MAX_KEY_LENGTH`. -/
theorem args_exactly_10240_still_fails :
    (ser (.obj [("a", .str (⟨List.replicate 10232 'x'⟩ : String))])).length
      = MAX_ARGS_SIZE ∧
    validateArgs [("a", .str (⟨List.replicate 10232 'x'⟩ : String))] = .ok () ∧
    cachedContractCall "INSURANCE_CONTRACT" "getPolicy"
        [("a", .str (⟨List.replicate 10232 'x'⟩ : String))] (.finite 45)
        (.value (.str "ok")) 0 0 ⟨Store.empty, 0, 0⟩ =
      ⟨.cacheFailure ⟨.INVALID_INPUT, "Cache key exceeds maximum length of 1024"⟩,
       false, ⟨Store.empty, 0, 0⟩⟩ := by
  have hlen : (ser (.obj [("a", .str (⟨List.replicate 10232 'x'⟩ : String))])).length
      = MAX_ARGS_SIZE := ser_obj_xrun_length 10232
  have hargs : validateArgs [("a", .str (⟨List.replicate 10232 'x'⟩ : String))]
      = .ok () := by
    unfold validateArgs
    rw [if_neg (by rw [hlen]; decide)]
  refine ⟨hlen, hargs, ?_⟩
  refine cachedCall_key_too_long _ _ _ _ _ _ _ _ rfl rfl hargs rfl ?_
  have hsort : sortObj [("a", .str (⟨List.replicate 10232 'x'⟩ : String))]
      = [("a", .str (⟨List.replicate 10232 'x'⟩ : String))] := rfl
  rw [hsort]
  have : (jsonStringify (.obj [("a", .str (⟨List.replicate 10232 'x'⟩ : String))])).length
      = MAX_ARGS_SIZE := hlen
  simp only [String.length_append, this, MAX_ARGS_SIZE, MAX_KEY_LENGTH]
  decide

/-- Witness for the amended C5: runs of 10233 and 10232 `x`s serialize to
10241 and 10240 characters respectively. -/
theorem args_size_boundary_amended_witness :
    cachedContractCall "INSURANCE_CONTRACT" "getPolicy"
        [("a", .str (⟨List.replicate 10233 'x'⟩ : String))] (.finite 45)
        (.value (.str "ok")) 0 0 ⟨Store.empty, 0, 0⟩ =
      ⟨.cacheFailure ⟨.INVALID_INPUT, "Args size exceeds maximum of 10240 bytes"⟩,
       false, ⟨Store.empty, 0, 0⟩⟩ ∧
    validateArgs [("a", .str (⟨List.replicate 10232 'x'⟩ : String))] = .ok () ∧
    cachedContractCall "INSURANCE_CONTRACT" "getPolicy"
        [("a", .str (⟨List.replicate 10232 'x'⟩ : String))] (.finite 45)
        (.value (.str "ok")) 0 0 ⟨Store.empty, 0, 0⟩ =
      ⟨.cacheFailure ⟨.INVALID_INPUT, "Cache key exceeds maximum length of 1024"⟩,
       false, ⟨Store.empty, 0, 0⟩⟩ :=
  args_size_boundary_amended "INSURANCE_CONTRACT" "getPolicy"
    [("a", .str (⟨List.replicate 10233 'x'⟩ : String))]
    [("a", .str (⟨List.replicate 10232 'x'⟩ : String))]
    (.finite 45) (.value (.str "ok")) 0 0 ⟨Store.empty, 0, 0⟩
    rfl rfl rfl ((ser_obj_xrun_length 10233).trans rfl)
    ((ser_obj_xrun_length 10232).trans rfl) (by decide)

/-! ### C3: serializer injectivity — decimal digits -/

/-- The fuel in `natDigitsF` is irrelevant once it exceeds the number. -/
theorem natDigitsF_stable : ∀ n f, n < f → natDigitsF f n = natDigits n := by
  intro n
  induction n using Nat.strong_induction_on with
  | _ n ih =>
    intro f hf
    match f with
    | f + 1 =>
      unfold natDigits
      by_cases h10 : n < 10
      · unfold natDigitsF
        rw [if_pos h10, if_pos h10]
      · have hdiv : n / 10 < n := Nat.div_lt_self (by omega) (by omega)
        unfold natDigitsF
        rw [if_neg h10, if_neg h10]
        rw [ih (n / 10) hdiv f (by omega), ih (n / 10) hdiv n (by omega)]

/-- The recurrence satisfied by `natDigits`. -/
theorem natDigits_unfold (n : Nat) :
    natDigits n =
      if n < 10 then [digitChar n]
      else natDigits (n / 10) ++ [digitChar (n % 10)] := by
  by_cases h10 : n < 10
  · rw [if_pos h10]
    show natDigitsF (n + 1) n = _
    unfold natDigitsF
    rw [if_pos h10]
  · rw [if_neg h10]
    show natDigitsF (n + 1) n = _
    unfold natDigitsF
    rw [if_neg h10]
    congr 1
    exact natDigitsF_stable (n / 10) n (Nat.div_lt_self (by omega) (by omega))

/-- Digit expansions are never empty. -/
theorem natDigits_ne_nil (n : Nat) : natDigits n ≠ [] := by
  rw [natDigits_unfold]
  by_cases h10 : n < 10
  · rw [if_pos h10]; simp
  · rw [if_neg h10]; simp

/-- Every character of a digit expansion is a decimal digit. -/
theorem natDigits_all_digits : ∀ n, ∀ c ∈ natDigits n, c.isDigit = true := by
  intro n
  induction n using Nat.strong_induction_on with
  | _ n ih =>
    intro c hc
    rw [natDigits_unfold] at hc
    have hdigit : ∀ m : Nat, m < 10 → (digitChar m).isDigit = true := by decide
    by_cases h10 : n < 10
    · rw [if_pos h10] at hc
      rcases List.mem_singleton.1 hc with rfl
      exact hdigit n h10
    · rw [if_neg h10] at hc
      rcases List.mem_append.1 hc with h | h
      · exact ih (n / 10) (Nat.div_lt_self (by omega) (by omega)) c h
      · rcases List.mem_singleton.1 h with rfl
        exact hdigit (n % 10) (Nat.mod_lt n (by omega))

/-- Digit expansion is injective. -/
theorem natDigits_inj : ∀ m n, natDigits m = natDigits n → m = n := by
  intro m
  induction m using Nat.strong_induction_on with
  | _ m ih =>
    intro n h
    rw [natDigits_unfold m, natDigits_unfold n] at h
    have hdigitInj : ∀ a : Nat, a < 10 → ∀ b : Nat, b < 10 →
        digitChar a = digitChar b → a = b := by decide
    by_cases hm : m < 10 <;> by_cases hn : n < 10
    · rw [if_pos hm, if_pos hn] at h
      exact hdigitInj m hm n hn (List.singleton_injective h)
    · rw [if_pos hm, if_neg hn] at h
      have hpos : 0 < (natDigits (n / 10)).length :=
        List.length_pos.2 (natDigits_ne_nil (n / 10))
      have hlen := congrArg List.length h
      simp only [List.length_append, List.length_singleton] at hlen
      omega
    · rw [if_neg hm, if_pos hn] at h
      have hpos : 0 < (natDigits (m / 10)).length :=
        List.length_pos.2 (natDigits_ne_nil (m / 10))
      have hlen := congrArg List.length h
      simp only [List.length_append, List.length_singleton] at hlen
      omega
    · rw [if_neg hm, if_neg hn] at h
      obtain ⟨h1, h2⟩ := List.append_inj h (by
        have hlen := congrArg List.length h
        simp only [List.length_append, List.length_singleton] at hlen
        omega)
      have hdiv : m / 10 = n / 10 :=
        ih (m / 10) (Nat.div_lt_self (by omega) (by omega)) (n / 10) h1
      have hmod : m % 10 = n % 10 :=
        hdigitInj _ (Nat.mod_lt m (by omega)) _ (Nat.mod_lt n (by omega))
          (List.singleton_injective h2)
      omega

/-- A list of characters all satisfying `p`, followed by a remainder whose
head does not satisfy `p`, can be recovered from the concatenation. -/
theorem chunk_det {p : Char → Bool} :
    ∀ (l₁ l₂ r₁ r₂ : List Char),
    (∀ c ∈ l₁, p c = true) → (∀ c ∈ l₂, p c = true) →
    (∀ c cs, r₁ = c :: cs → p c = false) →
    (∀ c cs, r₂ = c :: cs → p c = false) →
    l₁ ++ r₁ = l₂ ++ r₂ → l₁ = l₂ ∧ r₁ = r₂ := by
  intro l₁
  induction l₁ with
  | nil =>
    intro l₂ r₁ r₂ _ hl₂ hr₁ _ h
    cases l₂ with
    | nil => exact ⟨rfl, h⟩
    | cons b l₂ =>
      rw [List.nil_append, List.cons_append] at h
      have hb : p b = true := hl₂ b (List.mem_cons_self b l₂)
      have := hr₁ b (l₂ ++ r₂) h
      rw [hb] at this
      cases this
  | cons a l₁ ih =>
    intro l₂ r₁ r₂ hl₁ hl₂ hr₁ hr₂ h
    cases l₂ with
    | nil =>
      rw [List.nil_append, List.cons_append] at h
      have ha : p a = true := hl₁ a (List.mem_cons_self a l₁)
      have := hr₂ a (l₁ ++ r₁) h.symm
      rw [ha] at this
      cases this
    | cons b l₂ =>
      rw [List.cons_append, List.cons_append] at h
      obtain ⟨rfl, htl⟩ := List.cons.inj h
      obtain ⟨h1, h2⟩ := ih l₂ r₁ r₂
        (fun c hc => hl₁ c (List.mem_cons_of_mem a hc))
        (fun c hc => hl₂ c (List.mem_cons_of_mem a hc)) hr₁ hr₂ htl
      exact ⟨by rw [h1], h2⟩

/-- A remainder that starts with no digit. -/
def GuardHead (r : List Char) : Prop :=
  ∀ c cs, r = c :: cs → c.isDigit = false

/-- Natural digit runs followed by guarded remainders are uniquely
decodable. -/
theorem natDigits_det {m n : Nat} {r s : List Char}
    (hr : GuardHead r) (hs : GuardHead s)
    (h : natDigits m ++ r = natDigits n ++ s) : m = n ∧ r = s := by
  obtain ⟨h1, h2⟩ := chunk_det (natDigits m) (natDigits n) r s
    (natDigits_all_digits m) (natDigits_all_digits n) hr hs h
  exact ⟨natDigits_inj m n h1, h2⟩

/-- `intDigits` on a non-negative integer. -/
theorem intDigits_ofNat (n : Nat) : intDigits (Int.ofNat n) = natDigits n := rfl

/-- `intDigits` on a negative integer. -/
theorem intDigits_negSucc (n : Nat) :
    intDigits (Int.negSucc n) = '-' :: natDigits (n + 1) := rfl

/-- Digit heads: the first character of a natural digit run is a digit. -/
theorem natDigits_head (n : Nat) :
    ∃ c cs, natDigits n = c :: cs ∧ c.isDigit = true := by
  cases hd : natDigits n with
  | nil => exact absurd hd (natDigits_ne_nil n)
  | cons c cs =>
    exact ⟨c, cs, rfl, natDigits_all_digits n c (hd ▸ List.mem_cons_self c cs)⟩

/-- Integer digit runs followed by guarded remainders are uniquely
decodable. -/
theorem intDigits_det {a b : Int} {r s : List Char}
    (hr : GuardHead r) (hs : GuardHead s)
    (h : intDigits a ++ r = intDigits b ++ s) : a = b ∧ r = s := by
  cases a with
  | ofNat m =>
    cases b with
    | ofNat n =>
      rw [intDigits_ofNat, intDigits_ofNat] at h
      obtain ⟨h1, h2⟩ := natDigits_det hr hs h
      exact ⟨by rw [h1], h2⟩
    | negSucc n =>
      obtain ⟨c, cs, hc, hcd⟩ := natDigits_head m
      rw [intDigits_ofNat, intDigits_negSucc, hc] at h
      obtain ⟨h1, _⟩ := List.cons.inj h
      rw [h1] at hcd
      cases hcd
  | negSucc m =>
    cases b with
    | ofNat n =>
      obtain ⟨c, cs, hc, hcd⟩ := natDigits_head n
      rw [intDigits_negSucc, intDigits_ofNat, hc] at h
      obtain ⟨h1, _⟩ := List.cons.inj h
      rw [← h1] at hcd
      cases hcd
    | negSucc n =>
      rw [intDigits_negSucc, intDigits_negSucc] at h
      rw [List.cons_append, List.cons_append] at h
      obtain ⟨_, htl⟩ := List.cons.inj h
      obtain ⟨h1, h2⟩ := natDigits_det hr hs htl
      exact ⟨congrArg Int.negSucc (by omega), h2⟩

/-! ### C3: serializer injectivity — string escapes -/

/-- Value of a lower-case hexadecimal digit character. -/
def hexVal (c : Char) : Nat :=
  if c.toNat ≥ 97 then c.toNat - 87 else c.toNat - 48

/-- Inverse of the named escapes of `escChar`. -/
def unescChar (k : Char) : Char :=
  if k = 'n' then '\n'
  else if k = 'r' then '\r'
  else if k = 't' then '\t'
  else if k = 'b' then Char.ofNat 8
  else if k = 'f' then Char.ofNat 12
  else k

/-- Decode one escaped character from a string body; `none` at the
closing quote or at the end of input. -/
def decOne : List Char → Option (Char × List Char)
  | [] => none
  | c :: rest =>
    if c = '\\' then
      match rest with
      | 'u' :: _ :: _ :: x :: y :: tail =>
        some (Char.ofNat (16 * hexVal x + hexVal y), tail)
      | k :: tail => some (unescChar k, tail)
      | [] => none
    else if c = '"' then none
    else some (c, rest)

/-- `decOne` inverts `escChar`, whatever follows. -/
theorem decOne_esc (c : Char) (r : List Char) :
    decOne (escChar c ++ r) = some (c, r) := by
  have hhex : ∀ d : Nat, d < 16 → hexVal (hexDigitChar d) = d := by decide
  unfold escChar
  by_cases h1 : c = '"'
  · subst h1; rfl
  rw [if_neg h1]
  by_cases h2 : c = '\\'
  · subst h2; rfl
  rw [if_neg h2]
  by_cases h3 : c = '\n'
  · subst h3; rfl
  rw [if_neg h3]
  by_cases h4 : c = '\r'
  · subst h4; rfl
  rw [if_neg h4]
  by_cases h5 : c = '\t'
  · subst h5; rfl
  rw [if_neg h5]
  by_cases h6 : c.toNat = 8
  · have hc : c = Char.ofNat 8 := by rw [← h6, Char.ofNat_toNat]
    subst hc; rfl
  rw [if_neg h6]
  by_cases h7 : c.toNat = 12
  · have hc : c = Char.ofNat 12 := by rw [← h7, Char.ofNat_toNat]
    subst hc; rfl
  rw [if_neg h7]
  by_cases h8 : c.toNat < 32
  · rw [if_pos h8]
    rw [show decOne (['\\', 'u', '0', '0', hexDigitChar (c.toNat / 16),
          hexDigitChar (c.toNat % 16)] ++ r)
        = some (Char.ofNat (16 * hexVal (hexDigitChar (c.toNat / 16))
            + hexVal (hexDigitChar (c.toNat % 16))), r) from rfl]
    rw [hhex (c.toNat / 16) (by omega), hhex (c.toNat % 16) (by omega)]
    rw [show 16 * (c.toNat / 16) + c.toNat % 16 = c.toNat by omega]
    rw [Char.ofNat_toNat]
  · rw [if_neg h8]
    show decOne (c :: r) = some (c, r)
    simp only [decOne]
    rw [if_neg h2, if_neg h1]

/-- The closing quote is never decoded as a character. -/
theorem decOne_quote (r : List Char) : decOne ('"' :: r) = none := rfl

/-- Escaped string bodies followed by their closing quotes are uniquely
decodable. -/
theorem escBody_det :
    ∀ (s₁ s₂ r₁ r₂ : List Char),
    s₁.flatMap escChar ++ '"' :: r₁ = s₂.flatMap escChar ++ '"' :: r₂ →
    s₁ = s₂ ∧ r₁ = r₂ := by
  intro s₁
  induction s₁ with
  | nil =>
    intro s₂ r₁ r₂ h
    cases s₂ with
    | nil =>
      rw [List.flatMap_nil, List.nil_append, List.nil_append] at h
      obtain ⟨-, h2⟩ := List.cons.inj h
      exact ⟨rfl, h2⟩
    | cons d s₂ =>
      rw [List.flatMap_nil, List.nil_append, List.flatMap_cons,
        List.append_assoc] at h
      have hd := congrArg decOne h
      rw [decOne_esc d, decOne_quote] at hd
      cases hd
  | cons c s₁ ih =>
    intro s₂ r₁ r₂ h
    cases s₂ with
    | nil =>
      rw [List.flatMap_nil, List.nil_append, List.flatMap_cons,
        List.append_assoc] at h
      have hd := congrArg decOne h
      rw [decOne_esc c, decOne_quote] at hd
      cases hd
    | cons d s₂ =>
      rw [List.flatMap_cons, List.flatMap_cons, List.append_assoc,
        List.append_assoc] at h
      have hd := congrArg decOne h
      rw [decOne_esc c, decOne_esc d] at hd
      obtain ⟨hc, ht⟩ := Prod.mk.inj (Option.some.inj hd)
      obtain ⟨hs, hr⟩ := ih s₂ r₁ r₂ ht
      exact ⟨by rw [hc, hs], hr⟩

/-- Serialized strings followed by arbitrary remainders are uniquely
decodable. -/
theorem serStr_det {a b : String} {r s : List Char}
    (h : serStr a ++ r = serStr b ++ s) : a = b ∧ r = s := by
  unfold serStr at h
  rw [List.cons_append, List.cons_append, List.append_assoc,
    List.append_assoc, List.singleton_append, List.singleton_append] at h
  obtain ⟨-, h2⟩ := List.cons.inj h
  obtain ⟨h3, h4⟩ := escBody_det a.data b.data r s h2
  refine ⟨?_, h4⟩
  cases a
  cases b
  exact congrArg String.mk h3

/-! ### C3: serializer injectivity — head classification -/

/-- Tag of a value's constructor (booleans merged: both start with a
letter of their own). -/
def serTag : JValue → Nat
  | .null => 0
  | .boolean _ => 1
  | .num _ => 2
  | .str _ => 3
  | .arr _ => 4
  | .obj _ => 5

/-- What constructor a first serialized character announces. -/
def headKind (c : Char) : Nat :=
  if c = 'n' then 0
  else if c = 't' then 1
  else if c = 'f' then 1
  else if c.isDigit = true then 2
  else if c = '-' then 2
  else if c = '"' then 3
  else if c = '[' then 4
  else if c = '{' then 5
  else 6

/-- Digits announce a number. -/
theorem headKind_digit (c : Char) (h : c.isDigit = true) : headKind c = 2 := by
  unfold headKind
  rw [if_neg (by intro hc; rw [hc] at h; exact absurd h (by decide)),
    if_neg (by intro hc; rw [hc] at h; exact absurd h (by decide)),
    if_neg (by intro hc; rw [hc] at h; exact absurd h (by decide)),
    if_pos h]

/-- Every serialization is non-empty and starts with a character
announcing its constructor. -/
theorem ser_head (v : JValue) :
    ∃ c cs, ser v = c :: cs ∧ headKind c = serTag v := by
  cases v with
  | null => exact ⟨'n', _, rfl, by decide⟩
  | boolean b =>
    cases b with
    | true => exact ⟨'t', _, rfl, by decide⟩
    | false => exact ⟨'f', _, rfl, by decide⟩
  | num i =>
    cases i with
    | ofNat m =>
      obtain ⟨c, cs, hc, hd⟩ := natDigits_head m
      exact ⟨c, cs, hc, headKind_digit c hd⟩
    | negSucc m =>
      exact ⟨'-', _, rfl, rfl⟩
  | str a => exact ⟨'"', _, rfl, rfl⟩
  | arr xs => exact ⟨'[', _, rfl, rfl⟩
  | obj fs => exact ⟨'{', _, rfl, rfl⟩

/-- Constructor tags never exceed 5. -/
theorem serTag_le (v : JValue) : serTag v ≤ 5 := by
  cases v <;> simp only [serTag] <;> omega

/-- Two serializations that open the same stream share a constructor. -/
theorem ser_tag_eq {v w : JValue} {r s : List Char}
    (h : ser v ++ r = ser w ++ s) : serTag v = serTag w := by
  obtain ⟨c, cs, hv, hkv⟩ := ser_head v
  obtain ⟨d, ds, hw, hkw⟩ := ser_head w
  rw [hv, hw, List.cons_append, List.cons_append] at h
  obtain ⟨hcd, -⟩ := List.cons.inj h
  rw [← hkv, ← hkw, hcd]

/-- A serialization never begins with a separator or closer. -/
theorem ser_head_sep {v : JValue} {d : Char} {ds r : List Char}
    (hk : headKind d = 6) (h : d :: ds = ser v ++ r) : False := by
  obtain ⟨c, cs, hv, hkv⟩ := ser_head v
  rw [hv, List.cons_append] at h
  obtain ⟨hcd, -⟩ := List.cons.inj h
  rw [← hcd, hk] at hkv
  have := serTag_le v
  omega

/-- Determinacy of one serialized value with a guarded remainder. -/
def SerDet (v : JValue) : Prop :=
  ∀ w r s, GuardHead r → GuardHead s → ser v ++ r = ser w ++ s → v = w ∧ r = s

/-- The empty remainder is guarded. -/
theorem guardHead_nil : GuardHead [] := by
  intro c cs h
  exact List.noConfusion h

/-- A remainder headed by a non-digit is guarded. -/
theorem guardHead_cons {c : Char} (t : List Char) (hc : c.isDigit = false) :
    GuardHead (c :: t) := by
  intro c' cs h
  obtain ⟨h1, -⟩ := List.cons.inj h
  rw [← h1]
  exact hc

/-- Unfolding of `serArr` on a cons. -/
theorem serArr_cons (x : JValue) (xs : List JValue) :
    serArr (x :: xs) =
      ser x ++ (match xs with | [] => [] | _ :: _ => ',' :: serArr xs) := by
  cases xs <;> simp [serArr]

/-- Unfolding of `serObj` on a cons. -/
theorem serObj_cons_eq (k : String) (v : JValue)
    (fs : List (String × JValue)) :
    serObj ((k, v) :: fs) =
      serStr k ++ ':' ::
        (ser v ++ (match fs with | [] => [] | _ :: _ => ',' :: serObj fs)) := by
  cases fs <;> simp [serObj]

/-- Array items followed by the closing bracket are uniquely decodable. -/
theorem serArr_det :
    ∀ (xs ys : List JValue) (r s : List Char),
    (∀ x ∈ xs, SerDet x) →
    serArr xs ++ ']' :: r = serArr ys ++ ']' :: s → xs = ys ∧ r = s := by
  intro xs
  induction xs with
  | nil =>
    intro ys r s _ h
    cases ys with
    | nil =>
      simp only [serArr, List.nil_append] at h
      obtain ⟨-, h2⟩ := List.cons.inj h
      exact ⟨rfl, h2⟩
    | cons y ys =>
      rw [serArr_cons, List.append_assoc] at h
      simp only [serArr, List.nil_append] at h
      exact (ser_head_sep (by decide) h).elim
  | cons x xs ih =>
    intro ys r s hdet h
    cases ys with
    | nil =>
      rw [serArr_cons, List.append_assoc] at h
      simp only [serArr, List.nil_append] at h
      exact (ser_head_sep (by decide) h.symm).elim
    | cons y ys =>
      rw [serArr_cons, serArr_cons, List.append_assoc, List.append_assoc] at h
      have hguard : ∀ (zs : List JValue) (t : List Char),
          GuardHead ((match zs with | [] => [] | _ :: _ => ',' :: serArr zs)
            ++ ']' :: t) := by
        intro zs t
        cases zs with
        | nil => exact guardHead_cons _ (by decide)
        | cons z zs =>
          rw [List.cons_append]
          exact guardHead_cons _ (by decide)
      obtain ⟨hxy, htail⟩ := hdet x (List.mem_cons_self x xs) y _ _
        (hguard xs r) (hguard ys s) h
      subst hxy
      cases xs with
      | nil =>
        cases ys with
        | nil =>
          simp only [List.nil_append] at htail
          obtain ⟨-, h2⟩ := List.cons.inj htail
          exact ⟨rfl, h2⟩
        | cons y' ys =>
          rw [List.nil_append, List.cons_append] at htail
          obtain ⟨hc, -⟩ := List.cons.inj htail
          exact absurd hc (by decide)
      | cons x' xs =>
        cases ys with
        | nil =>
          rw [List.nil_append, List.cons_append] at htail
          obtain ⟨hc, -⟩ := List.cons.inj htail
          exact absurd hc (by decide)
        | cons y' ys =>
          rw [List.cons_append, List.cons_append] at htail
          obtain ⟨-, htl⟩ := List.cons.inj htail
          obtain ⟨h1, h2⟩ := ih (y' :: ys) r s
            (fun z hz => hdet z (List.mem_cons_of_mem x hz)) htl
          exact ⟨by rw [h1], h2⟩

/-- Object fields followed by the closing brace are uniquely decodable. -/
theorem serObj_det :
    ∀ (fs gs : List (String × JValue)) (r s : List Char),
    (∀ p ∈ fs, SerDet p.2) →
    serObj fs ++ '}' :: r = serObj gs ++ '}' :: s → fs = gs ∧ r = s := by
  intro fs
  induction fs with
  | nil =>
    intro gs r s _ h
    cases gs with
    | nil =>
      simp only [serObj, List.nil_append] at h
      obtain ⟨-, h2⟩ := List.cons.inj h
      exact ⟨rfl, h2⟩
    | cons g gs =>
      obtain ⟨k2, v2⟩ := g
      rw [serObj_cons_eq, List.append_assoc] at h
      simp only [serObj, List.nil_append] at h
      rw [show serStr k2 = '"' :: (k2.data.flatMap escChar ++ ['"']) from rfl,
        List.cons_append] at h
      obtain ⟨hc, -⟩ := List.cons.inj h
      exact absurd hc (by decide)
  | cons p fs ih =>
    intro gs r s hdet h
    obtain ⟨k1, v1⟩ := p
    cases gs with
    | nil =>
      rw [serObj_cons_eq, List.append_assoc] at h
      simp only [serObj, List.nil_append] at h
      rw [show serStr k1 = '"' :: (k1.data.flatMap escChar ++ ['"']) from rfl,
        List.cons_append] at h
      obtain ⟨hc, -⟩ := List.cons.inj h.symm
      exact absurd hc (by decide)
    | cons g gs =>
      obtain ⟨k2, v2⟩ := g
      rw [serObj_cons_eq, serObj_cons_eq, List.append_assoc,
        List.append_assoc, List.cons_append, List.cons_append,
        List.append_assoc, List.append_assoc] at h
      obtain ⟨hk, h2⟩ := serStr_det h
      obtain ⟨-, h3⟩ := List.cons.inj h2
      have hguard : ∀ (zs : List (String × JValue)) (t : List Char),
          GuardHead ((match zs with | [] => [] | _ :: _ => ',' :: serObj zs)
            ++ '}' :: t) := by
        intro zs t
        cases zs with
        | nil => exact guardHead_cons _ (by decide)
        | cons z zs =>
          rw [List.cons_append]
          exact guardHead_cons _ (by decide)
      obtain ⟨hv, htail⟩ := hdet (k1, v1) (List.mem_cons_self _ fs) v2 _ _
        (hguard fs r) (hguard gs s) h3
      subst hk
      subst hv
      cases fs with
      | nil =>
        cases gs with
        | nil =>
          simp only [List.nil_append] at htail
          obtain ⟨-, h4⟩ := List.cons.inj htail
          exact ⟨rfl, h4⟩
        | cons g' gs =>
          rw [List.nil_append, List.cons_append] at htail
          obtain ⟨hc, -⟩ := List.cons.inj htail
          exact absurd hc (by decide)
      | cons p' fs =>
        cases gs with
        | nil =>
          rw [List.nil_append, List.cons_append] at htail
          obtain ⟨hc, -⟩ := List.cons.inj htail
          exact absurd hc (by decide)
        | cons g' gs =>
          rw [List.cons_append, List.cons_append] at htail
          obtain ⟨-, htl⟩ := List.cons.inj htail
          obtain ⟨h4, h5⟩ := ih (g' :: gs) r s
            (fun z hz => hdet z (List.mem_cons_of_mem _ hz)) htl
          exact ⟨by rw [h4], h5⟩

/-- Serialization with a guarded remainder is uniquely decodable. -/
theorem ser_det_aux : ∀ n : Nat, ∀ v : JValue, sizeOf v ≤ n → SerDet v := by
  intro n
  induction n using Nat.strong_induction_on with
  | _ n ih =>
    intro v hv
    unfold SerDet
    intro w r s hr hs heq
    cases v <;> cases w <;>
      (try (exfalso; have htag := ser_tag_eq heq; simp only [serTag] at htag; omega))
    case null.null => exact ⟨rfl, List.append_cancel_left heq⟩
    case boolean.boolean a b =>
      cases a <;> cases b
      · exact ⟨rfl, List.append_cancel_left heq⟩
      · simp [ser] at heq
      · simp [ser] at heq
      · exact ⟨rfl, List.append_cancel_left heq⟩
    case num.num a b =>
      rw [show ser (.num a) = intDigits a from rfl,
        show ser (.num b) = intDigits b from rfl] at heq
      obtain ⟨h1, h2⟩ := intDigits_det hr hs heq
      exact ⟨congrArg JValue.num h1, h2⟩
    case str.str a b =>
      rw [show ser (.str a) = serStr a from rfl,
        show ser (.str b) = serStr b from rfl] at heq
      obtain ⟨h1, h2⟩ := serStr_det heq
      exact ⟨congrArg JValue.str h1, h2⟩
    case arr.arr xs ys =>
      rw [show ser (.arr xs) = '[' :: serArr xs ++ [']'] from rfl,
        show ser (.arr ys) = '[' :: serArr ys ++ [']'] from rfl,
        List.cons_append, List.cons_append, List.append_assoc,
        List.append_assoc, List.singleton_append, List.singleton_append] at heq
      obtain ⟨-, htl⟩ := List.cons.inj heq
      have hdet : ∀ x ∈ xs, SerDet x := by
        intro x hx
        have h1 := List.sizeOf_lt_of_mem hx
        have h2 : sizeOf (JValue.arr xs) = 1 + sizeOf xs := by
          simp [JValue.arr.sizeOf_spec]
        exact ih (sizeOf x) (by omega) x le_rfl
      obtain ⟨h1, h2⟩ := serArr_det xs ys r s hdet htl
      exact ⟨congrArg JValue.arr h1, h2⟩
    case obj.obj fs gs =>
      rw [show ser (.obj fs) = '{' :: serObj fs ++ ['}'] from rfl,
        show ser (.obj gs) = '{' :: serObj gs ++ ['}'] from rfl,
        List.cons_append, List.cons_append, List.append_assoc,
        List.append_assoc, List.singleton_append, List.singleton_append] at heq
      obtain ⟨-, htl⟩ := List.cons.inj heq
      have hdet : ∀ p ∈ fs, SerDet p.2 := by
        intro p hp
        obtain ⟨pk, pv⟩ := p
        have h1 := List.sizeOf_lt_of_mem hp
        have h2 : sizeOf (JValue.obj fs) = 1 + sizeOf fs := by
          simp [JValue.obj.sizeOf_spec]
        have h3 : sizeOf (pk, pv) = 1 + sizeOf pk + sizeOf pv := by
          simp [Prod.mk.sizeOf_spec]
        exact ih (sizeOf pv) (by omega) pv le_rfl
      obtain ⟨h1, h2⟩ := serObj_det fs gs r s hdet htl
      exact ⟨congrArg JValue.obj h1, h2⟩

/-- `JSON.stringify` is injective on values. -/
theorem ser_inj {v w : JValue} (h : ser v = ser w) : v = w := by
  have h2 : ser v ++ [] = ser w ++ [] := by
    rw [List.append_nil, List.append_nil, h]
  exact (ser_det_aux (sizeOf v) v le_rfl w [] [] guardHead_nil guardHead_nil h2).1

/-! ### C3: the string order used for key sorting -/

/-- `lexLe` is total. -/
theorem lexLe_total : ∀ l₁ l₂ : List Char, lexLe l₁ l₂ = true ∨ lexLe l₂ l₁ = true := by
  intro l₁
  induction l₁ with
  | nil => intro l₂; left; rfl
  | cons a as ih =>
    intro l₂
    cases l₂ with
    | nil => right; rfl
    | cons b bs =>
      by_cases hab : a < b
      · left; simp [lexLe, hab]
      · by_cases hba : b < a
        · right; simp [lexLe, hba]
        · rcases ih bs with h | h
          · left; simp [lexLe, hab, hba, h]
          · right; simp [lexLe, hab, hba, h]

/-- `lexLe` is antisymmetric. -/
theorem lexLe_antisymm : ∀ l₁ l₂ : List Char,
    lexLe l₁ l₂ = true → lexLe l₂ l₁ = true → l₁ = l₂ := by
  intro l₁
  induction l₁ with
  | nil =>
    intro l₂ _ h
    cases l₂ with
    | nil => rfl
    | cons b bs => exact absurd h (by simp [lexLe])
  | cons a as ih =>
    intro l₂ h₁ h₂
    cases l₂ with
    | nil => exact absurd h₁ (by simp [lexLe])
    | cons b bs =>
      by_cases hab : a < b
      · have : ¬ b < a := lt_asymm hab
        simp [lexLe, this, hab] at h₂
      · by_cases hba : b < a
        · simp [lexLe, hab, hba] at h₁
        · have hEq : a = b := le_antisymm (le_of_not_lt hba) (le_of_not_lt hab)
          simp [lexLe, hab, hba] at h₁ h₂
          rw [hEq, ih bs h₁ h₂]

/-- `lexLe` is transitive. -/
theorem lexLe_trans : ∀ l₁ l₂ l₃ : List Char,
    lexLe l₁ l₂ = true → lexLe l₂ l₃ = true → lexLe l₁ l₃ = true := by
  intro l₁
  induction l₁ with
  | nil => intro l₂ l₃ _ _; rfl
  | cons a as ih =>
    intro l₂ l₃ h₁ h₂
    cases l₂ with
    | nil => exact absurd h₁ (by simp [lexLe])
    | cons b bs =>
      cases l₃ with
      | nil => exact absurd h₂ (by simp [lexLe])
      | cons c cs =>
        by_cases hab : a < b
        · by_cases hbc : b < c
          · simp [lexLe, lt_trans hab hbc]
          · by_cases hcb : c < b
            · simp [lexLe, hbc, hcb] at h₂
            · have : b = c := le_antisymm (le_of_not_lt hcb) (le_of_not_lt hbc)
              rw [← this]
              simp [lexLe, hab]
        · by_cases hba : b < a
          · simp [lexLe, hab, hba] at h₁
          · have hEq : a = b := le_antisymm (le_of_not_lt hba) (le_of_not_lt hab)
            subst hEq
            by_cases hac : a < c
            · simp [lexLe, hac]
            · by_cases hca : c < a
              · simp [lexLe, hac, hca] at h₂
              · simp [lexLe, hab, hba] at h₁
                simp [lexLe, hac, hca] at h₂ ⊢
                exact ih bs cs h₁ h₂

/-- `strLe` is total. -/
theorem strLe_total (a b : String) : strLe a b = true ∨ strLe b a = true :=
  lexLe_total a.data b.data

/-- `strLe` is antisymmetric. -/
theorem strLe_antisymm {a b : String}
    (h₁ : strLe a b = true) (h₂ : strLe b a = true) : a = b := by
  cases a
  cases b
  exact congrArg String.mk (lexLe_antisymm _ _ h₁ h₂)

/-- `strLe` is transitive. -/
theorem strLe_trans {a b c : String}
    (h₁ : strLe a b = true) (h₂ : strLe b c = true) : strLe a c = true :=
  lexLe_trans a.data b.data c.data h₁ h₂

/-- Membership in an insertion. -/
theorem mem_insertSorted {y k : String} {l : List String} :
    y ∈ insertSorted k l ↔ y = k ∨ y ∈ l := by
  rw [(insertSorted_perm k l).mem_iff]
  exact List.mem_cons

/-- Insertion preserves sortedness. -/
theorem insertSorted_sorted (k : String) (l : List String)
    (h : l.Sorted (fun a b => strLe a b = true)) :
    (insertSorted k l).Sorted (fun a b => strLe a b = true) := by
  induction l with
  | nil => simp [insertSorted]
  | cons x xs ih =>
    rw [List.sorted_cons] at h
    unfold insertSorted
    by_cases hc : strLe k x
    · rw [if_pos hc, List.sorted_cons]
      refine ⟨?_, List.sorted_cons.2 h⟩
      intro b hb
      rcases List.mem_cons.1 hb with rfl | hb
      · exact hc
      · exact strLe_trans hc (h.1 b hb)
    · rw [if_neg hc, List.sorted_cons]
      have hxk : strLe x k = true := by
        rcases strLe_total k x with h' | h'
        · exact absurd h' hc
        · exact h'
      refine ⟨?_, ih h.2⟩
      intro b hb
      rcases mem_insertSorted.1 hb with rfl | hb
      · exact hxk
      · exact h.1 b hb

/-- The sorted key list is sorted. -/
theorem sortStrings_sorted (l : List String) :
    (sortStrings l).Sorted (fun a b => strLe a b = true) := by
  induction l with
  | nil => simp [sortStrings]
  | cons x xs ih => exact insertSorted_sorted x (sortStrings xs) ih

/-- Sorting is invariant under permutation. -/
theorem sortStrings_eq_of_perm {l₁ l₂ : List String} (h : l₁.Perm l₂) :
    sortStrings l₁ = sortStrings l₂ := by
  haveI : IsAntisymm String (fun a b => strLe a b = true) :=
    ⟨fun _ _ h₁ h₂ => strLe_antisymm h₁ h₂⟩
  exact List.eq_of_perm_of_sorted
    (((sortStrings_perm l₁).trans h).trans (sortStrings_perm l₂).symm)
    (sortStrings_sorted l₁) (sortStrings_sorted l₂)

/-! ### C3: lookups under permutation, and the canonical key -/

/-- On objects with pairwise-distinct keys, `lookup` is invariant under
permutation of the entries. -/
theorem lookup_perm {l₁ l₂ : JObj} (h : l₁.Perm l₂) :
    (l₁.map Prod.fst).Nodup → ∀ k, l₁.lookup k = l₂.lookup k := by
  induction h with
  | nil => intro _ _; rfl
  | cons p h ih =>
    intro hnd k
    obtain ⟨a, b⟩ := p
    simp only [List.map_cons, List.nodup_cons] at hnd
    cases hk : k == a with
    | true => simp [List.lookup, hk]
    | false => simp [List.lookup, hk, ih hnd.2 k]
  | swap x y l =>
    intro hnd k
    obtain ⟨a₁, b₁⟩ := x
    obtain ⟨a₂, b₂⟩ := y
    simp only [List.map_cons, List.nodup_cons, List.mem_cons] at hnd
    have hne : a₂ ≠ a₁ := fun hEq => hnd.1 (Or.inl hEq)
    cases hk₁ : k == a₁ with
    | true =>
      have : k = a₁ := eq_of_beq hk₁
      subst this
      have hk₂ : (k == a₂) = false := beq_eq_false_iff_ne.mpr (fun hEq => hne hEq.symm)
      simp [List.lookup, hk₁, hk₂]
    | false =>
      cases hk₂ : k == a₂ with
      | true => simp [List.lookup, hk₁, hk₂]
      | false => simp [List.lookup, hk₁, hk₂]
  | trans h₁ h₂ ih₁ ih₂ =>
    intro hnd k
    have hnd₂ := ((h₁.map Prod.fst).nodup_iff).1 hnd
    rw [ih₁ hnd k, ih₂ hnd₂ k]

/-- `jlookup` is invariant under permutation (distinct keys). -/
theorem jlookup_perm {l₁ l₂ : JObj} (h : l₁.Perm l₂)
    (hnd : (l₁.map Prod.fst).Nodup) (k : String) :
    jlookup k l₁ = jlookup k l₂ := by
  unfold jlookup
  rw [lookup_perm h hnd k]

/-- Canonicalization is invariant under permutation of the entries. -/
theorem sortObj_perm_eq {args args' : JObj} (hp : args'.Perm args)
    (hnd : (args.map Prod.fst).Nodup) : sortObj args' = sortObj args := by
  unfold sortObj
  rw [sortStrings_eq_of_perm (hp.map Prod.fst)]
  apply List.map_congr_left
  intro k _
  have hnd' : (args'.map Prod.fst).Nodup := ((hp.map Prod.fst).nodup_iff).2 hnd
  rw [jlookup_perm hp hnd' k]

/-- `generateCacheKey` is invariant under permutation of the argument
entries. -/
theorem generateCacheKey_perm (cid m : String) {args args' : JObj}
    (hp : args'.Perm args) (hnd : (args.map Prod.fst).Nodup) :
    generateCacheKey cid m args' = generateCacheKey cid m args := by
  have hlen : (ser (.obj args')).length = (ser (.obj args)).length := by
    simp only [ser, List.length_cons, List.length_append]
    rw [serObj_length_perm hp]
  have hargs : validateArgs args' = validateArgs args := by
    unfold validateArgs
    rw [hlen]
  have hsort : sortObj args' = sortObj args := sortObj_perm_eq hp hnd
  unfold generateCacheKey
  rw [hargs, hsort]

/-- The key returned by a successful `generateCacheKey` is the canonical
string. -/
theorem generateCacheKey_ok_shape {cid m : String} {args : JObj}
    {key : String} (h : generateCacheKey cid m args = .ok key) :
    key = cid ++ ":" ++ m ++ ":" ++ jsonStringify (.obj (sortObj args)) := by
  obtain ⟨h1, h2, h3⟩ := generateCacheKey_ok_validations h
  unfold generateCacheKey at h
  simp only [bind, h1, h2, h3, Except.bind] at h
  by_cases hlen : (cid ++ ":" ++ m ++ ":"
      ++ jsonStringify (.obj (sortObj args))).length > MAX_KEY_LENGTH
  · rw [if_pos hlen] at h
    exact absurd h (by simp [throw, throwThe, MonadExceptOf.throw])
  · rw [if_neg hlen] at h
    simp only [pure, Except.pure] at h
    exact (Except.ok.inj h).symm

/-- Keys with present lookups: a key of the object looks up to its
`jlookup` value. -/
theorem lookup_eq_some_jlookup {k : String} {l : JObj}
    (h : k ∈ l.map Prod.fst) : l.lookup k = some (jlookup k l) := by
  induction l with
  | nil => cases h
  | cons p l ih =>
    obtain ⟨a, b⟩ := p
    cases hk : k == a with
    | true => simp [List.lookup, jlookup, hk]
    | false =>
      have hmem : k ∈ l.map Prod.fst := by
        simp only [List.map_cons, List.mem_cons] at h
        rcases h with h | h
        · exact absurd (beq_eq_false_iff_ne.mp hk) (fun hne => hne h)
        · exact h
      rw [jlookup_cons_ne a k b l (beq_eq_false_iff_ne.mp hk)]
      rw [show List.lookup k ((a, b) :: l) = List.lookup k l from by
        simp [List.lookup, hk]]
      exact ih hmem

/-- Absent keys look up to `none`. -/
theorem lookup_eq_none_of_not_mem {k : String} {l : JObj}
    (h : k ∉ l.map Prod.fst) : l.lookup k = none := by
  rw [List.lookup_eq_none_iff]
  intro p hp
  have : p.1 ∈ l.map Prod.fst := List.mem_map_of_mem Prod.fst hp
  exact bne_iff_ne.mpr (fun hEq => h (hEq ▸ this))

/-- The keys of the canonicalized object are the sorted keys. -/
theorem sortObj_keys (a : JObj) :
    (sortObj a).map Prod.fst = sortStrings (a.map Prod.fst) := by
  unfold sortObj
  rw [List.map_map]
  rw [show (Prod.fst ∘ fun k => (k, jlookup k a)) = id from rfl, List.map_id]

/-- C3: key derivation is a pure, canonical function of its validated
inputs.  For every valid `(contractId, method, args)` with
pairwise-distinct argument keys: every permutation of the top-level
entries of `args` yields the identical key; the key is exactly
`contractId ++ ":" ++ method ++ ":" ++` the JSON of `args` with top-level
keys sorted lexicographically; and any difference in an argument value
yields a different key (equal keys force equal lookups at every
argument name). -/
theorem generateCacheKey_canonical (contractId method : String)
    (args : JObj) (key : String)
    (hkey : generateCacheKey contractId method args = .ok key)
    (hnodup : (args.map Prod.fst).Nodup) :
    (∀ args' : JObj, args'.Perm args →
      generateCacheKey contractId method args' = .ok key) ∧
    key = contractId ++ ":" ++ method ++ ":"
      ++ jsonStringify (.obj (sortObj args)) ∧
    (∀ args₂ : JObj, (args₂.map Prod.fst).Nodup →
      generateCacheKey contractId method args₂ = .ok key →
      ∀ k, args₂.lookup k = args.lookup k) := by
  refine ⟨?_, generateCacheKey_ok_shape hkey, ?_⟩
  · intro args' hp
    rw [generateCacheKey_perm contractId method hp hnodup, hkey]
  · intro args₂ hnd₂ hkey₂ k
    have hs₁ := generateCacheKey_ok_shape hkey
    have hs₂ := generateCacheKey_ok_shape hkey₂
    have hcanon : contractId ++ ":" ++ method ++ ":"
          ++ jsonStringify (.obj (sortObj args₂))
        = contractId ++ ":" ++ method ++ ":"
          ++ jsonStringify (.obj (sortObj args)) := by
      rw [← hs₁, ← hs₂]
    have hdata := congrArg String.data hcanon
    simp only [String.data_append, List.append_assoc] at hdata
    have hser : ser (.obj (sortObj args₂)) = ser (.obj (sortObj args)) :=
      List.append_cancel_left (List.append_cancel_left
        (List.append_cancel_left (List.append_cancel_left hdata)))
    have hobj := ser_inj hser
    have hsort : sortObj args₂ = sortObj args := by injection hobj
    have hkeys : sortStrings (args₂.map Prod.fst)
        = sortStrings (args.map Prod.fst) := by
      rw [← sortObj_keys, ← sortObj_keys, hsort]
    have hmaps : (sortStrings (args.map Prod.fst)).map
          (fun k => (k, jlookup k args₂))
        = (sortStrings (args.map Prod.fst)).map
          (fun k => (k, jlookup k args)) := by
      have h2 := hsort
      unfold sortObj at h2
      rw [hkeys] at h2
      exact h2
    have hjl := List.map_eq_map_iff.1 hmaps
    by_cases hk : k ∈ args.map Prod.fst
    · have hk' : k ∈ sortStrings (args.map Prod.fst) :=
        ((sortStrings_perm _).mem_iff).2 hk
      have hpair := hjl k hk'
      have hjq : jlookup k args₂ = jlookup k args := by
        have := congrArg Prod.snd hpair
        simpa using this
      have hk₂ : k ∈ args₂.map Prod.fst := by
        have hmem : k ∈ sortStrings (args₂.map Prod.fst) := by
          rw [hkeys]
          exact hk'
        exact ((sortStrings_perm _).mem_iff).1 hmem
      rw [lookup_eq_some_jlookup hk, lookup_eq_some_jlookup hk₂, hjq]
    · have hk₂ : k ∉ args₂.map Prod.fst := by
        intro hmem
        apply hk
        have hmem' : k ∈ sortStrings (args₂.map Prod.fst) :=
          ((sortStrings_perm _).mem_iff).2 hmem
        rw [hkeys] at hmem'
        exact ((sortStrings_perm _).mem_iff).1 hmem'
      rw [lookup_eq_none_of_not_mem hk, lookup_eq_none_of_not_mem hk₂]

/-- Witness for C3 at concrete inputs: a two-key args object, its sorted
canonical key. -/
theorem generateCacheKey_canonical_witness :
    (∀ args' : JObj, args'.Perm [("owner", .str "G"), ("amount", .num 5)] →
      generateCacheKey "INSURANCE_CONTRACT" "getActivePolicies" args' =
        .ok "INSURANCE_CONTRACT:getActivePolicies:\x7b\"amount\":5,\"owner\":\"G\"\x7d") ∧
    "INSURANCE_CONTRACT:getActivePolicies:\x7b\"amount\":5,\"owner\":\"G\"\x7d"
      = "INSURANCE_CONTRACT" ++ ":" ++ "getActivePolicies" ++ ":"
        ++ jsonStringify (.obj (sortObj [("owner", .str "G"), ("amount", .num 5)])) ∧
    (∀ args₂ : JObj, (args₂.map Prod.fst).Nodup →
      generateCacheKey "INSURANCE_CONTRACT" "getActivePolicies" args₂ =
        .ok "INSURANCE_CONTRACT:getActivePolicies:\x7b\"amount\":5,\"owner\":\"G\"\x7d" →
      ∀ k, args₂.lookup k = List.lookup k [("owner", .str "G"), ("amount", .num 5)]) :=
  generateCacheKey_canonical "INSURANCE_CONTRACT" "getActivePolicies"
    [("owner", .str "G"), ("amount", .num 5)]
    "INSURANCE_CONTRACT:getActivePolicies:\x7b\"amount\":5,\"owner\":\"G\"\x7d"
    rfl (by decide)

end ContractCache
